import Mathlib

/-!
# Forward chainer

A shallow embedding of `opencog/ure/forwardchainer/ForwardChainer.cc`.

* Atoms are referred to through handles; the atom store, the pattern matcher,
  the rule unifier and the control policy are collaborators whose code is not
  part of `ForwardChainer.cc`.  They are gathered in `Collaborators` and every
  theorem is stated for an arbitrary collaborator.
* A collaborator call that may raise returns an `Option` (`none` = raised);
  a call that also mutates a store returns the store it leaves behind.
* Weights are non-negative `double`s in the source.  Only the comparison with
  `0.0` and the proportions matter to the chainer, so they are natural numbers
  here.
* `std::set` containers (`RuleSet`, `HandleSet`) are duplicate-free lists in
  iteration order.
* The member functions mutate `*this`; here they take and return the
  `ForwardChainer` record.  The field `calls` is a ghost log of the member
  functions entered, in order; it has no counterpart in the source and no
  function reads it.
-/

namespace opencog

/-- Handle of an atom (content identity). `Handle::UNDEFINED` is `none` of `Option Handle`. -/
abbrev Handle := Nat

/-- Atom types the chainer distinguishes. -/
inductive AtomType
  | LIST_LINK
  | SET_LINK
  | CONCEPT_NODE
  | OTHER (code : Nat)
deriving DecidableEq, Repr

/-- Truth value of a rule: the pair from which its success probability is estimated. -/
abbrev TruthValue := Nat × Nat

/-- Probability estimate handed from rule selection to the source pool. -/
abbrev Prob := ℚ

/-- Modelled from the spec: the Rule capability (`opencog/ure/Rule.h` is absent).
A rule exposes a name, its rule atom, a meta flag, a validity flag, a truth
value, its clauses and its variable set. -/
structure Rule where
  name : String
  rule : Handle
  is_meta : Bool
  valid : Bool
  tv : TruthValue
  clauses : List Handle
  varset : List Handle
deriving DecidableEq, Repr

/-- The default constructed `Rule()`: not valid. -/
def Rule.invalid : Rule := ⟨"", 0, false, false, (0, 0), [], []⟩

/-- Accessor `Rule::is_valid`. -/
def Rule.is_valid (r : Rule) : Bool := r.valid

/-- Insertion into a `std::set`: nothing happens when the element is present. -/
def set_insert {α : Type} [DecidableEq α] (s : List α) (a : α) : List α :=
  if a ∈ s then s else s ++ [a]

/-- Range insertion `s.insert(first, last)`. -/
def set_insert_all {α : Type} [DecidableEq α] (s : List α) (l : List α) : List α :=
  l.foldl set_insert s

/-- Modelled from the spec: a premise (`Source` is declared outside `ForwardChainer.cc`).
It wraps a term, an optional variable declaration, the rules already applied
to it and an exhaustion flag. -/
structure Source where
  body : Handle
  vardecl : Option Handle
  rules : List Rule
  exhausted : Bool
deriving DecidableEq, Repr

/-- Modelled from the spec: `Source::is_exhausted(rule)`, the rule is already
recorded in the applied-rule set of the premise. -/
def Source.is_exhausted (s : Source) (r : Rule) : Bool := decide (r ∈ s.rules)

/-- Modelled from the spec: the weight of a premise, 0 when exhausted and
given by the policy otherwise. -/
def Source.get_weight (policy : Source → Nat) (s : Source) : Nat :=
  if s.exhausted then 0 else policy s

/-- Modelled from the spec: clearing the exhaustion flag of a premise. -/
def Source.reset_exhausted (s : Source) : Source := { s with exhausted := false }

/-- Modelled from the spec: the source pool, an ordered collection of premises
and a pool-level exhausted flag. -/
structure SourceSet where
  sources : List Source
  exhausted : Bool
deriving DecidableEq, Repr

/-- Modelled from the spec: `SourceSet::empty`. -/
def SourceSet.empty (ss : SourceSet) : Bool := ss.sources.isEmpty

/-- Modelled from the spec: `weights()`, one weight per premise. -/
def SourceSet.get_weights (policy : Source → Nat) (ss : SourceSet) : List Nat :=
  ss.sources.map (Source.get_weight policy)

/-- Modelled from the spec: `reset_exhausted()` clears every premise's exhaustion flag. -/
def SourceSet.reset_exhausted (ss : SourceSet) : SourceSet :=
  { ss with sources := ss.sources.map Source.reset_exhausted }

/-- Modelled from the spec: `insert(derived_facts, origin_premise, success_prob)`
deduplicates the derived facts against the existing premises and adds the
genuinely new ones as fresh premises. -/
def SourceSet.insert (ss : SourceSet) (products : List Handle) (_origin : Source)
    (_prob : Prob) : SourceSet :=
  products.foldl
    (fun acc h =>
      if acc.sources.any (fun s => decide (s.body = h)) then acc
      else { acc with sources := acc.sources ++ [⟨h, none, [], false⟩] })
    ss

/-- Modelled from the spec: an inference record
(iteration index, premise, rule, set of derived facts). -/
structure InferenceRecord where
  iteration : Int
  source : Handle
  rule : Rule
  products : List Handle
deriving DecidableEq, Repr

/-- Configuration values read by the chainer (`UREConfig`). -/
structure UREConfig where
  maximum_iterations : Int
  jobs : Int
  retry_exhausted_sources : Bool
deriving DecidableEq, Repr

/-- Conversion `(unsigned)` of an `int`. -/
def to_unsigned (n : Int) : Nat := (n % (2 ^ 32 : Int)).toNat

/-- Ghost log entries: the member functions of `ForwardChainer` entered. -/
inductive Call
  | do_step_rec
  | do_step
  | select_source
  | select_rule (source : Handle)
  | apply_rule_on (rule : Rule) (index : Nat)
  | apply_rule (rule : Rule)
  | apply_all_rules
deriving DecidableEq, Repr

/-- The collaborators of the chainer for an atom store of type `AS`. -/
structure Collaborators (AS : Type) where
  /-- Method `AtomSpace::add_atom`: the store afterwards, and the stored atom unless it raised. -/
  add_atom : AS → Handle → AS × Option Handle
  /-- Method `AtomSpace::get_atom`: `none` raised, `some none` is `Handle::UNDEFINED`. -/
  get_atom : AS → Handle → Option (Option Handle)
  /-- Method `AtomSpace::add_node`. -/
  add_node : AS → AtomType → String → AS × Handle
  /-- Constructor `AtomSpace(&parent)` of a child store. -/
  new_child : AS → AS
  /-- Method `Atom::get_type`. -/
  get_type : Handle → AtomType
  /-- Method `Atom::getOutgoingSet`, which raises on an atom that is not a link. -/
  getOutgoingSet : Handle → Option (List Handle)
  /-- Function `is_constant(varset, clause)`. -/
  is_constant : List Handle → Handle → Option Bool
  /-- Call `bl->satisfy(fs_pmcb)` followed by `fs_pmcb.get_result_set()`, for the
  callback built on the child store and the knowledge base: the knowledge
  base afterwards and the result handles. -/
  satisfy : AS → AS → Handle → AS × Option (List Handle)
  /-- Call `rhcpy->execute(&_kb_as)`: the knowledge base afterwards and the result. -/
  execute : AS → Handle → AS × Option Handle
  /-- Method `Rule::unify_source` followed by `Rule::strip_typed_substitution`. -/
  unify_source : Rule → Handle → Option Handle → AS → List Rule
  /-- Method `RuleSet::expand_meta_rules(kb)`: the rule set and the knowledge base afterwards. -/
  expand_meta_rules : List Rule → AS → List Rule × AS
  /-- Call `ThompsonSampling(tvs).distribution()`. -/
  thompson_distribution : List TruthValue → List Nat
  /-- Call `BetaDistribution(tv).mean()`. -/
  beta_mean : TruthValue → Prob
  /-- The policy giving the weight of a premise that is not exhausted. -/
  weight_policy : Source → Nat
  /-- The stream of values produced by `randGen()`. -/
  randGen : Nat → Nat

/-- The state of a `ForwardChainer` object. -/
structure ForwardChainer (AS : Type) where
  kb_as : AS
  focus_set_as : AS
  search_focus_set : Bool
  rules : List Rule
  sources : SourceSet
  fcstat : List InferenceRecord
  iteration : Int
  jobs : Nat
  /-- Number of values already drawn from `randGen()`. -/
  rng : Nat
  /-- Number of steps launched with `std::async` so far. -/
  launched : Nat
  /-- Ghost log. -/
  calls : List Call
deriving DecidableEq, Repr

variable {AS : Type}

/-- Append an entry to the ghost log. -/
def ForwardChainer.enter (fc : ForwardChainer AS) (c : Call) : ForwardChainer AS :=
  { fc with calls := fc.calls ++ [c] }

/-- Number of values that the canonical random value of the sampler is formed
from: two 32-bit outputs `x0`, `x1` of the generator give the value
`(x0 + 2^32 * x1) / 2^64` in `[0, 1)`, which is 0 when both outputs are 0. -/
def canonical_range : Nat := 2 ^ 64

/-- Call `std::lower_bound(cp.begin(), cp.end(), p)` of the sampler, as a position:
the first cumulative probability that is not less than `p`.  The list holds
the weights from the current position on and `acc` is the sum of the weights
before it, so that the cumulative probability at the current position is
`(acc + w) / total`; the canonical value `p` is `u / canonical_range`.  The
last cumulative probability is set to 1 by the sampler and is not less than
any `p`. -/
def lower_bound_cumulative (total u : Nat) : List Nat → Nat → Nat
  | [], _ => 0
  | [_], _ => 0
  | w :: w2 :: ws, acc =>
    if (acc + w) * canonical_range < u * total then
      lower_bound_cumulative total u (w2 :: ws) (acc + w) + 1
    else 0

/-- Drawing from `std::discrete_distribution<size_t>(weights)` with the random value
`r`, after the library's algorithm: the weights are divided by their sum and
accumulated, the last cumulative probability is set to 1, a canonical value
`p` in `[0, 1)` is formed from the generator, and the position of the first
cumulative probability not less than `p` is returned (0 when there are
fewer than two weights).  The value `r` stands for the outputs of the
generator read as one number.  The weights are naturals and the arithmetic
is exact: the rounding of the cumulative sums and of `p` is left out.  The
position drawn for `p = 0` is 0 whatever the first weight is. -/
def discrete_distribution (weights : List Nat) (r : Nat) : Nat :=
  lower_bound_cumulative weights.sum (r % canonical_range) weights 0

/-- Method `ForwardChainer::select_source`.  The result is `none` when the recursion
has not returned within `fuel` calls; otherwise it is the chainer afterwards
and the index in the pool of the selected source (`none` for `nullptr`). -/
def select_source (E : Collaborators AS) (cfg : UREConfig) :
    Nat → ForwardChainer AS → Option (ForwardChainer AS × Option Nat)
  | 0, _ => none
  | fuel + 1, fc0 =>
    let fc := fc0.enter Call.select_source
    let weights := fc.sources.get_weights E.weight_policy
    let total := weights.sum
    if total = 0 then
      if cfg.retry_exhausted_sources then
        select_source E cfg fuel { fc with sources := fc.sources.reset_exhausted }
      else
        some ({ fc with sources := { fc.sources with exhausted := true } }, none)
    else
      some ({ fc with rng := fc.rng + 1 },
            some (discrete_distribution weights (E.randGen fc.rng)))

/-- Method `ForwardChainer::get_valid_rules`. -/
def get_valid_rules (E : Collaborators AS) (fc : ForwardChainer AS) (source : Source) :
    List Rule :=
  fc.rules.foldl
    (fun valid_rules rule =>
      if rule.is_meta then valid_rules
      else
        let ref_as := if fc.search_focus_set then fc.focus_set_as else fc.kb_as
        let unified_rules := E.unify_source rule source.body source.vardecl ref_as
        let une_rules :=
          unified_rules.foldl
            (fun une ur => if !source.is_exhausted ur then set_insert une ur else une) []
        set_insert_all valid_rules une_rules)
    []

/-- Method `ForwardChainer::select_rule(const RuleSet&)`.  The element drawn by
`rand_element` is the one at the sampled position; the source has no defined
behaviour when that position is past the end, where `Rule()` stands in. -/
def select_rule_set (E : Collaborators AS) (fc : ForwardChainer AS) (valid_rules : List Rule) :
    ForwardChainer AS × (Rule × Prob) :=
  let tvs := valid_rules.map Rule.tv
  let weights := E.thompson_distribution tvs
  let selected_rule :=
    valid_rules.getD (discrete_distribution weights (E.randGen fc.rng)) Rule.invalid
  let prob := E.beta_mean selected_rule.tv
  ({ fc with rng := fc.rng + 1 }, (selected_rule, prob))

/-- Method `ForwardChainer::select_rule(Source&)`.  The source is passed by value
and returned with the rule and its probability. -/
def select_rule (E : Collaborators AS) (fc0 : ForwardChainer AS) (source : Source) :
    ForwardChainer AS × Source × (Rule × Prob) :=
  let fc := fc0.enter (Call.select_rule source.body)
  let valid_rules := get_valid_rules E fc source
  if valid_rules.isEmpty then
    (fc, { source with exhausted := true }, (Rule.invalid, 0))
  else
    let r := select_rule_set E fc valid_rules
    (r.1, source, r.2)

/-- Inner loop of `add_results` over the outgoing set of a List or Set:
`results.insert(as.add_atom(hc))`.  The last component tells whether a call raised. -/
def add_outgoing (E : Collaborators AS) : AS → List Handle → List Handle → AS × List Handle × Bool
  | as, results, [] => (as, results, false)
  | as, results, hc :: rest =>
    match E.add_atom as hc with
    | (as1, none) => (as1, results, true)
    | (as1, some stored) => add_outgoing E as1 (set_insert results stored) rest

/-- The closure `add_results` of `apply_rule`, on the store `as`, the set `results`
captured by reference and the handles `hs`.  The last component tells whether
a call raised, in which case the loop is left at once. -/
def add_results (E : Collaborators AS) : AS → List Handle → List Handle → AS × List Handle × Bool
  | as, results, [] => (as, results, false)
  | as, results, h :: hs =>
    let t := E.get_type h
    if t = AtomType.LIST_LINK ∨ t = AtomType.SET_LINK then
      match E.getOutgoingSet h with
      | none => (as, results, true)
      | some out =>
        match add_outgoing E as results out with
        | (as1, results1, true) => (as1, results1, true)
        | (as1, results1, false) => add_results E as1 results1 hs
    else
      match E.add_atom as h with
      | (as1, none) => (as1, results, true)
      | (as1, some stored) => add_results E as1 (set_insert results stored) hs

/-- Outcome of the loop over the clauses in `apply_rule`. -/
inductive GuardOutcome
  | passed
  | absent_constant_clause
  | raised
deriving DecidableEq, Repr

/-- The loop of `apply_rule` making sure that all constant clauses are in the
reference store: it returns at the first constant clause for which
`ref_as.get_atom(clause) == Handle::UNDEFINED`. -/
def constant_clause_guard (E : Collaborators AS) (ref_as : AS) (varset : List Handle) :
    List Handle → GuardOutcome
  | [] => GuardOutcome.passed
  | clause :: rest =>
    match E.is_constant varset clause with
    | none => GuardOutcome.raised
    | some false => constant_clause_guard E ref_as varset rest
    | some true =>
      match E.get_atom ref_as clause with
      | none => GuardOutcome.raised
      | some none => GuardOutcome.absent_constant_clause
      | some (some _) => constant_clause_guard E ref_as varset rest

/-- Method `ForwardChainer::apply_rule(const Rule&)`.  Whatever is raised inside
the `try` block is caught by `catch (...)` and `results` is returned as it
stands. -/
def apply_rule (E : Collaborators AS) (fc0 : ForwardChainer AS) (rule : Rule) :
    ForwardChainer AS × List Handle :=
  let fc := fc0.enter (Call.apply_rule rule)
  let results : List Handle := []
  let ref_as := if fc.search_focus_set then fc.focus_set_as else fc.kb_as
  match E.add_atom (E.new_child ref_as) rule.rule with
  | (_, none) => (fc, results)
  | (derived_rule_as, some rhcpy) =>
    match constant_clause_guard E ref_as rule.varset rule.clauses with
    | GuardOutcome.raised => (fc, results)
    | GuardOutcome.absent_constant_clause => (fc, results)
    | GuardOutcome.passed =>
      if fc.search_focus_set then
        match E.satisfy derived_rule_as fc.kb_as rhcpy with
        | (kb, none) => ({ fc with kb_as := kb }, results)
        | (kb, some rslts) =>
          let r := add_results E fc.focus_set_as results rslts
          ({ fc with kb_as := kb, focus_set_as := r.1 }, r.2.1)
      else
        match E.execute fc.kb_as rhcpy with
        | (kb, none) => ({ fc with kb_as := kb }, results)
        | (kb, some h) =>
          match E.getOutgoingSet h with
          | none => ({ fc with kb_as := kb }, results)
          | some out =>
            let r := add_results E kb results out
            ({ fc with kb_as := r.1 }, r.2.1)

/-- Method `ForwardChainer::apply_rule(const Rule&, Source&)`.  The source is
passed by value and returned; `index` is its position in the pool and only
goes to the ghost log. -/
def apply_rule_source (E : Collaborators AS) (fc0 : ForwardChainer AS) (rule : Rule)
    (index : Nat) (source : Source) : ForwardChainer AS × Source × List Handle :=
  let fc := fc0.enter (Call.apply_rule_on rule index)
  let source1 := { source with rules := set_insert source.rules rule }
  let r := apply_rule E fc rule
  (r.1, source1, r.2)

/-- Method `ForwardChainer::expand_meta_rules`. -/
def expand_meta_rules (E : Collaborators AS) (fc : ForwardChainer AS) : ForwardChainer AS :=
  let r := E.expand_meta_rules fc.rules fc.kb_as
  { fc with rules := r.1, kb_as := r.2 }

/-- Write a source back at its position in the pool. -/
def ForwardChainer.set_source (fc : ForwardChainer AS) (i : Nat) (source : Source) :
    ForwardChainer AS :=
  { fc with sources := { fc.sources with sources := fc.sources.sources.set i source } }

/-- Method `ForwardChainer::do_step`.  The result is `none` when `select_source`
has not returned within `fuel` calls.  The pointer returned by
`select_source` is a position in the pool; `select_rule` and `apply_rule`
work on the source found there, which is written back. -/
def do_step (E : Collaborators AS) (cfg : UREConfig) (fuel : Nat) (fc0 : ForwardChainer AS) :
    Option (ForwardChainer AS) :=
  let fc1 := fc0.enter Call.do_step
  let local_iteration := fc1.iteration
  let fc2 := expand_meta_rules E { fc1 with iteration := fc1.iteration + 1 }
  match select_source E cfg fuel fc2 with
  | none => none
  | some (fc3, none) => some fc3
  | some (fc3, some i) =>
    match fc3.sources.sources.get? i with
    | none => some fc3
    | some source =>
      let sel := select_rule E fc3 source
      let rule := sel.2.2.1
      let prob := sel.2.2.2
      if !rule.is_valid then
        some (sel.1.set_source i sel.2.1)
      else
        let app := apply_rule_source E sel.1 rule i sel.2.1
        let fc4 := app.1.set_source i app.2.1
        let products := app.2.2
        let fc5 := { fc4 with sources := fc4.sources.insert products app.2.1 prob }
        some { fc5 with
          fcstat := fc5.fcstat ++ [⟨local_iteration, app.2.1.body, rule, products⟩] }

/-- Method `ForwardChainer::termination`. -/
def termination (cfg : UREConfig) (fc : ForwardChainer AS) : Bool :=
  if fc.sources.exhausted then true
  else if 0 ≤ cfg.maximum_iterations ∧ cfg.maximum_iterations ≤ fc.iteration then true
  else false

/-- Method `ForwardChainer::do_step_rec`.  The result is `none` when the recursion
has not returned within `fuel` calls.  A step launched with `std::async` runs
concurrently with the recursive call; `eager k` tells for the `k`-th launch
whether that step runs to completion before the recursive call starts or
only when it is waited for.  With a job count of at most 1 no step is
launched and `eager` is not consulted. -/
def do_step_rec (E : Collaborators AS) (cfg : UREConfig) (eager : Nat → Bool) :
    Nat → ForwardChainer AS → Option (ForwardChainer AS)
  | 0, _ => none
  | fuel + 1, fc0 =>
    let fc := fc0.enter Call.do_step_rec
    if termination cfg fc then some fc
    else if (fc.jobs + 1) % 2 ^ 32 < to_unsigned cfg.jobs then
      let fc1 := { fc with jobs := (fc.jobs + 1) % 2 ^ 32, launched := fc.launched + 1 }
      if eager fc.launched then
        (do_step E cfg fuel fc1).bind fun fc2 =>
          (do_step_rec E cfg eager fuel fc2).map fun fc3 =>
            { fc3 with jobs := (fc3.jobs + (2 ^ 32 - 1)) % 2 ^ 32 }
      else
        (do_step_rec E cfg eager fuel fc1).bind fun fc2 =>
          (do_step E cfg fuel fc2).map fun fc3 =>
            { fc3 with jobs := (fc3.jobs + (2 ^ 32 - 1)) % 2 ^ 32 }
    else
      (do_step E cfg fuel fc).bind fun fc2 => do_step_rec E cfg eager fuel fc2

/-- The loop of `ForwardChainer::apply_all_rules` over the rules still to apply. -/
def apply_all_rules_loop (E : Collaborators AS) : ForwardChainer AS → List Rule → ForwardChainer AS
  | fc, [] => fc
  | fc, rule :: rest =>
    let r := apply_rule E fc rule
    let n := E.add_node r.1.kb_as AtomType.CONCEPT_NODE "dummy-source"
    apply_all_rules_loop E
      { r.1 with kb_as := n.1, fcstat := r.1.fcstat ++ [⟨r.1.iteration, n.2, rule, r.2⟩] }
      rest

/-- Method `ForwardChainer::apply_all_rules`. -/
def apply_all_rules (E : Collaborators AS) (fc : ForwardChainer AS) : ForwardChainer AS :=
  apply_all_rules_loop E (fc.enter Call.apply_all_rules) fc.rules

/-- Method `ForwardChainer::do_chain`. -/
def do_chain (E : Collaborators AS) (cfg : UREConfig) (eager : Nat → Bool) (fuel : Nat)
    (fc : ForwardChainer AS) : Option (ForwardChainer AS) :=
  if fc.sources.empty then some (apply_all_rules E fc)
  else do_step_rec E cfg eager fuel fc

/-- A small collaborator on stores that are lists of handles, used to evaluate
the chainer on concrete inputs.  `add_atom` raises on the handles of `bad`;
the atoms 100, 200 and 300 are a List, a Set and a Set; executing the rule
atom `r` yields the atom `100 * r`; a rule unifies with a source that is one
of its clauses. -/
def sample_collaborators (bad : List Handle) : Collaborators (List Handle) where
  add_atom := fun as h => if h ∈ bad then (as, none) else (set_insert as h, some h)
  get_atom := fun as h => some (if h ∈ as then some h else none)
  add_node := fun as _ name => (set_insert as (1000 + name.length), 1000 + name.length)
  new_child := fun as => as
  get_type := fun h =>
    if h = 100 then AtomType.LIST_LINK
    else if h = 200 ∨ h = 300 then AtomType.SET_LINK
    else AtomType.OTHER 0
  getOutgoingSet := fun h =>
    if h = 100 then some [1, 200]
    else if h = 200 then some [2, 3]
    else if h = 300 then some [4, 13]
    else none
  is_constant := fun varset clause => some (decide (clause ∉ varset))
  satisfy := fun _ kb rh =>
    (kb, if rh = 1 then some [100, 5] else if rh = 2 then some [2, 3] else none)
  execute := fun kb rh => (kb, if rh = 0 then none else some (100 * rh))
  unify_source := fun rule body _ _ => if body ∈ rule.clauses then [rule] else []
  expand_meta_rules := fun rules kb => (rules, kb)
  thompson_distribution := fun tvs => tvs.map fun tv => tv.1 + 1
  beta_mean := fun _ => 1
  weight_policy := fun _ => 1
  randGen := fun n => n

/-- A chainer on list stores with the given knowledge base, rules and sources. -/
def sample_chainer (kb : List Handle) (rules : List Rule) (sources : List Source) :
    ForwardChainer (List Handle) :=
  { kb_as := kb, focus_set_as := [], search_focus_set := false, rules := rules,
    sources := ⟨sources, false⟩, fcstat := [], iteration := 0, jobs := 0, rng := 0,
    launched := 0, calls := [] }

/-- A valid rule with the given name, rule atom and clauses, over the variable 9. -/
def sample_rule (name : String) (atom : Handle) (clauses : List Handle) : Rule :=
  ⟨name, atom, false, true, (1, 1), clauses, [9]⟩

/-- Whether a derived term is a collection wrapper: its type is List or Set. -/
def is_wrapper (E : Collaborators AS) (h : Handle) : Bool :=
  decide (E.get_type h = AtomType.LIST_LINK ∨ E.get_type h = AtomType.SET_LINK)

/-- Result normalization as the specification words it: a wrapper is replaced by
the elements of its outgoing set, any other term stands for itself; one
level only. -/
def unpack_terms (E : Collaborators AS) (hs : List Handle) : List Handle :=
  hs.flatMap fun h => if is_wrapper E h then (E.getOutgoingSet h).getD [] else [h]

/-- Storing terms one after the other with `add_atom`: the store afterwards, the
stored versions in order, and whether a call raised (the rest is then not
stored). -/
def store_all (E : Collaborators AS) : AS → List Handle → AS × List Handle × Bool
  | as, [] => (as, [], false)
  | as, t :: ts =>
    match E.add_atom as t with
    | (as1, none) => (as1, [], true)
    | (as1, some stored) =>
      let r := store_all E as1 ts
      (r.1, stored :: r.2.1, r.2.2)

/-- The normalized terms that `add_results` gets to when reading the raw terms in
order: the elements of the outgoing set of every List or Set and every
other raw term itself, up to the first List or Set whose outgoing set cannot
be read; and whether there is such a raw term. -/
def unpack_until_raise (E : Collaborators AS) : List Handle → List Handle × Bool
  | [] => ([], false)
  | h :: hs =>
    if is_wrapper E h then
      match E.getOutgoingSet h with
      | none => ([], true)
      | some out => (out ++ (unpack_until_raise E hs).1, (unpack_until_raise E hs).2)
    else (h :: (unpack_until_raise E hs).1, (unpack_until_raise E hs).2)

/-- The applications `apply_rule(rule, source)` recorded in a ghost log, as pairs
of the rule and the position of the source in the pool, in order. -/
def applications : List Call → List (Rule × Nat)
  | [] => []
  | Call.apply_rule_on r i :: cs => (r, i) :: applications cs
  | Call.do_step_rec :: cs => applications cs
  | Call.do_step :: cs => applications cs
  | Call.select_source :: cs => applications cs
  | Call.select_rule _ :: cs => applications cs
  | Call.apply_rule _ :: cs => applications cs
  | Call.apply_all_rules :: cs => applications cs

/-- Invariant of a run: no pair of a rule and a premise has been applied twice,
and every rule applied to a premise is in the applied-rule set of that
premise. -/
def applied_once (fc : ForwardChainer AS) : Prop :=
  (applications fc.calls).Nodup ∧
  ∀ p ∈ applications fc.calls, ∃ s, fc.sources.sources[p.2]? = some s ∧ p.1 ∈ s.rules

/-- The number of calls of `do_step` recorded in a ghost log. -/
def do_step_calls (calls : List Call) : Nat := calls.count Call.do_step

/-- Every premise of the old pool is at the same position in the new pool, with
at least the same applied rules. -/
def rules_kept (old new : List Source) : Prop :=
  ∀ (i : Nat) (s : Source), old[i]? = some s →
    ∃ s' : Source, new[i]? = some s' ∧ ∀ r ∈ s.rules, r ∈ s'.rules

/-- Progress of a step launched with `std::async` in `do_step_rec`: its thread
has not started `do_step` yet, is executing it, or has completed it. -/
inductive TaskStatus
  | pending
  | running
  | finished
deriving DecidableEq, Repr

/-- What an activation of `do_step_rec` that is inside its recursive call has
left to do afterwards.  In the branch that launched a step it holds the
future `ft` and has `ft.wait(); _jobs--;` left; in the other branch it has
run, or is running, `do_step()` in line and has nothing left. -/
inductive Frame
  | waits (ft : TaskStatus)
  | tail
deriving DecidableEq, Repr

/-- Position of the main thread, the only thread that executes `do_step_rec`:
about to execute a call `do_step_rec()`; executing `do_step()` in line;
back in the innermost pending activation after its recursive call has
returned; or back in the caller of the outermost activation. -/
inductive Pc
  | call
  | in_line
  | ret
  | done
deriving DecidableEq, Repr

/-- An instant of an execution of `do_step_rec` with its launched steps: the
shared chainer, the position of the main thread, and the pending
activations, innermost first. -/
structure Threads (AS : Type) where
  fc : ForwardChainer AS
  pc : Pc
  stack : List Frame
deriving DecidableEq, Repr

/-- The thread that moves next: the main thread, or the step launched by the
activation at position `k` of the stack. -/
inductive Choice
  | main_thread
  | task (k : Nat)
deriving DecidableEq, Repr

/-- One move of the main thread through `do_step_rec`.  At a call it evaluates
`termination()` and either returns, or launches a step (`_jobs++` and
`std::async`) and goes on to the recursive call, or starts `do_step()` in
line.  A step in line completes and the recursive call follows.  After a
recursive call the activation either returns at once or executes
`ft.wait(); _jobs--;`, where it stays blocked until the launched step has
completed.  The writes of a step take effect when it completes. -/
def main_step (E : Collaborators AS) (cfg : UREConfig) (fuel : Nat) (s : Threads AS) :
    Threads AS :=
  match s.pc with
  | Pc.call =>
    let fc := s.fc.enter Call.do_step_rec
    if termination cfg fc then { s with fc := fc, pc := Pc.ret }
    else if (fc.jobs + 1) % 2 ^ 32 < to_unsigned cfg.jobs then
      { fc := { fc with jobs := (fc.jobs + 1) % 2 ^ 32, launched := fc.launched + 1 },
        pc := Pc.call,
        stack := Frame.waits TaskStatus.pending :: s.stack }
    else
      { fc := fc, pc := Pc.in_line, stack := Frame.tail :: s.stack }
  | Pc.in_line =>
    match do_step E cfg fuel s.fc with
    | some fc1 => { s with fc := fc1, pc := Pc.call }
    | none => s
  | Pc.ret =>
    match s.stack with
    | [] => { s with pc := Pc.done }
    | Frame.tail :: rest => { s with stack := rest }
    | Frame.waits TaskStatus.finished :: rest =>
      { s with fc := { s.fc with jobs := (s.fc.jobs + (2 ^ 32 - 1)) % 2 ^ 32 }, stack := rest }
    | Frame.waits _ :: _ => s
  | Pc.done => s

/-- One move of the step launched by the activation at position `k`: its thread
starts executing `do_step()`, or completes it. -/
def task_step (E : Collaborators AS) (cfg : UREConfig) (fuel : Nat) (k : Nat)
    (s : Threads AS) : Threads AS :=
  match s.stack.get? k with
  | some (Frame.waits TaskStatus.pending) =>
    { s with stack := s.stack.set k (Frame.waits TaskStatus.running) }
  | some (Frame.waits TaskStatus.running) =>
    match do_step E cfg fuel s.fc with
    | some fc1 => { s with fc := fc1, stack := s.stack.set k (Frame.waits TaskStatus.finished) }
    | none => s
  | _ => s

/-- One move of the thread chosen by the scheduler. -/
def thread_step (E : Collaborators AS) (cfg : UREConfig) (fuel : Nat) (c : Choice)
    (s : Threads AS) : Threads AS :=
  match c with
  | Choice.main_thread => main_step E cfg fuel s
  | Choice.task k => task_step E cfg fuel k s

/-- The instant reached from `s` under the schedule `sched`. -/
def run_schedule (E : Collaborators AS) (cfg : UREConfig) (fuel : Nat) :
    List Choice → Threads AS → Threads AS
  | [], s => s
  | c :: cs, s => run_schedule E cfg fuel cs (thread_step E cfg fuel c s)

/-- The instant at which the main thread is about to call `do_step_rec()` on the
chainer `fc`. -/
def start_threads (fc : ForwardChainer AS) : Threads AS := ⟨fc, Pc.call, []⟩

/-- Number of steps launched by the pending activations and not joined yet. -/
def in_flight_frames : List Frame → Nat
  | [] => 0
  | Frame.waits _ :: rest => in_flight_frames rest + 1
  | Frame.tail :: rest => in_flight_frames rest

/-- Number of steps launched during the run and not joined yet. -/
def in_flight (s : Threads AS) : Nat := in_flight_frames s.stack

/-- Number of steps that are being executed: the launched steps whose thread is
inside `do_step()`, and the step of the main thread when it runs one in
line. -/
def executing (s : Threads AS) : Nat :=
  s.stack.count (Frame.waits TaskStatus.running) + (if s.pc = Pc.in_line then 1 else 0)

/-! ## Sampling and source selection -/

theorem lower_bound_cumulative_lt (total u : Nat) :
    ∀ (ws : List Nat) (acc : Nat), ws ≠ [] → lower_bound_cumulative total u ws acc < ws.length
  | [], _, h => absurd rfl h
  | [_], _, _ => by simp [lower_bound_cumulative]
  | w :: w2 :: ws, acc, _ => by
    unfold lower_bound_cumulative
    have ih := lower_bound_cumulative_lt total u (w2 :: ws) (acc + w) (by simp)
    split
    · simp only [List.length_cons] at ih ⊢
      omega
    · simp

theorem discrete_distribution_lt (ws : List Nat) (r : Nat) (h : ws ≠ []) :
    discrete_distribution ws r < ws.length :=
  lower_bound_cumulative_lt _ _ ws 0 h

theorem discrete_distribution_zero (w w2 : Nat) (ws : List Nat) (r : Nat)
    (h : r % canonical_range = 0) : discrete_distribution (w :: w2 :: ws) r = 0 := by
  unfold discrete_distribution
  rw [h]
  unfold lower_bound_cumulative
  simp

theorem reset_exhausted_idem (ss : SourceSet) :
    ss.reset_exhausted.reset_exhausted = ss.reset_exhausted := by
  simp [SourceSet.reset_exhausted, Source.reset_exhausted, Function.comp_def]

theorem reset_exhausted_flag (ss : SourceSet) :
    ss.reset_exhausted.exhausted = ss.exhausted := rfl

theorem select_source_succ (E : Collaborators AS) (cfg : UREConfig) (fuel : Nat)
    (fc : ForwardChainer AS) :
    select_source E cfg (fuel + 1) fc =
      if (fc.sources.get_weights E.weight_policy).sum = 0 then
        if cfg.retry_exhausted_sources then
          select_source E cfg fuel
            { fc.enter Call.select_source with sources := fc.sources.reset_exhausted }
        else
          some ({ fc.enter Call.select_source with
                  sources := { fc.sources with exhausted := true } }, none)
      else
        some ({ fc.enter Call.select_source with rng := fc.rng + 1 },
              some (discrete_distribution (fc.sources.get_weights E.weight_policy)
                (E.randGen fc.rng))) := rfl

theorem select_source_diverges (E : Collaborators AS) (cfg : UREConfig)
    (hretry : cfg.retry_exhausted_sources = true) :
    ∀ (fuel : Nat) (fc : ForwardChainer AS),
      (fc.sources.get_weights E.weight_policy).sum = 0 →
      (fc.sources.reset_exhausted.get_weights E.weight_policy).sum = 0 →
      select_source E cfg fuel fc = none := by
  intro fuel
  induction fuel with
  | zero => intro fc _ _; rfl
  | succ n ih =>
    intro fc h0 h1
    rw [select_source_succ, if_pos h0, hretry, if_pos rfl]
    apply ih
    · exact h1
    · show ((fc.sources.reset_exhausted).reset_exhausted.get_weights E.weight_policy).sum = 0
      rw [reset_exhausted_idem]; exact h1

theorem select_source_some_spec (E : Collaborators AS) (cfg : UREConfig) :
    ∀ (fuel : Nat) (fc fc' : ForwardChainer AS) (i : Nat),
      select_source E cfg fuel fc = some (fc', some i) →
      (∃ src, fc'.sources.sources[i]? = some src) ∧
      0 < (fc'.sources.get_weights E.weight_policy).sum ∧
      fc'.sources.exhausted = fc.sources.exhausted ∧
      (((fc.sources.get_weights E.weight_policy).sum ≠ 0 ∧ fc'.sources = fc.sources) ∨
        ((fc.sources.get_weights E.weight_policy).sum = 0 ∧
          cfg.retry_exhausted_sources = true ∧ fc'.sources = fc.sources.reset_exhausted)) := by
  intro fuel
  induction fuel with
  | zero => intro fc fc' i h; simp [select_source] at h
  | succ n ih =>
    intro fc fc' i h
    rw [select_source_succ] at h
    by_cases h0 : (fc.sources.get_weights E.weight_policy).sum = 0
    · rw [if_pos h0] at h
      by_cases hr : cfg.retry_exhausted_sources = true
      · rw [hr, if_pos rfl] at h
        obtain ⟨hsrc, hsum, hflag, hpool⟩ := ih _ fc' i h
        refine ⟨hsrc, hsum, ?_, Or.inr ⟨h0, hr, ?_⟩⟩
        · simpa [reset_exhausted_flag] using hflag
        · rcases hpool with ⟨_, hp⟩ | ⟨_, _, hp⟩
          · exact hp
          · rw [hp]; exact reset_exhausted_idem fc.sources
      · have hr' : cfg.retry_exhausted_sources = false := by simpa using hr
        rw [hr'] at h
        simp at h
    · rw [if_neg h0] at h
      simp only [Option.some.injEq, Prod.mk.injEq] at h
      obtain ⟨hfc, hi⟩ := h
      subst hfc
      subst hi
      have hne : fc.sources.get_weights E.weight_policy ≠ [] := by
        intro hnil
        rw [hnil] at h0
        exact h0 rfl
      have hlt := discrete_distribution_lt (fc.sources.get_weights E.weight_policy)
        (E.randGen fc.rng) hne
      refine ⟨?_, Nat.pos_of_ne_zero h0, rfl, Or.inl ⟨h0, rfl⟩⟩
      have hlen : (fc.sources.get_weights E.weight_policy).length =
          fc.sources.sources.length := by
        simp [SourceSet.get_weights]
      rw [hlen] at hlt
      exact ⟨_, List.getElem?_eq_getElem hlt⟩

theorem sum_eq_zero_of_all_zero (ws : List Nat) (h : ∀ w ∈ ws, w = 0) : ws.sum = 0 := by
  induction ws with
  | nil => rfl
  | cons w ws ih =>
    simp only [List.sum_cons]
    have h1 := h w (by simp)
    have h2 := ih (fun x hx => h x (by simp [hx]))
    omega

theorem select_source_retry_once (E : Collaborators AS) (cfg : UREConfig)
    (hretry : cfg.retry_exhausted_sources = true) (fuel : Nat) (fc : ForwardChainer AS)
    (h0 : (fc.sources.get_weights E.weight_policy).sum = 0)
    (h1 : (fc.sources.reset_exhausted.get_weights E.weight_policy).sum ≠ 0) :
    select_source E cfg (fuel + 2) fc =
      some ({ ({ fc.enter Call.select_source with
                 sources := fc.sources.reset_exhausted }).enter Call.select_source with
              rng := fc.rng + 1 },
            some (discrete_distribution (fc.sources.reset_exhausted.get_weights E.weight_policy)
              (E.randGen fc.rng))) := by
  rw [select_source_succ, if_pos h0, hretry, if_pos rfl, select_source_succ]
  rw [if_neg (by exact h1)]
  rfl

theorem sum_pos_of_all_pos (ws : List Nat) (hne : ws ≠ []) (h : ∀ w ∈ ws, 0 < w) :
    0 < ws.sum := by
  cases ws with
  | nil => exact absurd rfl hne
  | cons w ws =>
    have := h w (by simp)
    simp only [List.sum_cons]
    omega

theorem reset_weights_pos (E : Collaborators AS) (ss : SourceSet) (hne : ss.sources ≠ [])
    (hpos : ∀ s, 0 < E.weight_policy s) :
    0 < (ss.reset_exhausted.get_weights E.weight_policy).sum := by
  apply sum_pos_of_all_pos
  · simpa [SourceSet.get_weights, SourceSet.reset_exhausted] using hne
  · intro w hw
    simp only [SourceSet.get_weights, SourceSet.reset_exhausted, List.map_map,
      List.mem_map, Function.comp] at hw
    obtain ⟨s, _, hs⟩ := hw
    rw [← hs]
    simp only [Source.get_weight, Source.reset_exhausted, Bool.false_eq_true, if_false]
    exact hpos _

theorem select_source_all_zero (E : Collaborators AS) (cfg : UREConfig) (fuel : Nat)
    (fc : ForwardChainer AS) (hr : cfg.retry_exhausted_sources = false)
    (hall : ∀ w ∈ fc.sources.get_weights E.weight_policy, w = 0) :
    select_source E cfg (fuel + 1) fc =
      some ({ fc.enter Call.select_source with
              sources := { fc.sources with exhausted := true } }, none) := by
  rw [select_source_succ, if_pos (sum_eq_zero_of_all_zero _ hall), hr]
  rfl

/-- C6, at the failing input: a pool whose first premise is exhausted, of weight 0,
and whose second premise is fresh, of weight 1; retry disabled; a generator
whose next canonical value is 0.  The total weight is positive and
`select_source` returns the premise at position 0, whose weight is 0.  The
pool's exhausted flag is left as it was. -/
theorem select_source_selects_zero_weight_premise :
    (sample_chainer [] [] [⟨1, none, [], true⟩, ⟨2, none, [], false⟩]).sources.get_weights
        (sample_collaborators []).weight_policy = [0, 1] ∧
    (sample_collaborators []).randGen 0 % canonical_range = 0 ∧
    select_source (sample_collaborators []) ⟨1, 1, false⟩ 1
        (sample_chainer [] [] [⟨1, none, [], true⟩, ⟨2, none, [], false⟩]) =
      some ({ (sample_chainer [] [] [⟨1, none, [], true⟩, ⟨2, none, [], false⟩]).enter
                Call.select_source with rng := 1 }, some 0) ∧
    (∃ src,
      (sample_chainer [] [] [⟨1, none, [], true⟩, ⟨2, none, [], false⟩]).sources.sources[0]? =
        some src ∧ src.get_weight (sample_collaborators []).weight_policy = 0) := by
  refine ⟨by decide, by decide, by decide, ⟨⟨1, none, [], true⟩, rfl, by decide⟩⟩

/-! ## Valid rules and rule selection -/

theorem mem_set_insert {α : Type} [DecidableEq α] (s : List α) (a x : α) :
    x ∈ set_insert s a ↔ x ∈ s ∨ x = a := by
  unfold set_insert
  by_cases h : a ∈ s
  · simp only [h, if_true]
    constructor
    · exact Or.inl
    · rintro (hx | hx)
      · exact hx
      · rw [hx]; exact h
  · simp [h]

theorem mem_set_insert_all {α : Type} [DecidableEq α] (l s : List α) (x : α) :
    x ∈ set_insert_all s l ↔ x ∈ s ∨ x ∈ l := by
  unfold set_insert_all
  induction l generalizing s with
  | nil => simp
  | cons a l ih =>
    simp only [List.foldl_cons, List.mem_cons]
    rw [ih, mem_set_insert]
    tauto

theorem nodup_set_insert {α : Type} [DecidableEq α] (s : List α) (a : α) (h : s.Nodup) :
    (set_insert s a).Nodup := by
  unfold set_insert
  by_cases ha : a ∈ s
  · simpa [ha] using h
  · simp only [ha, if_false]
    rw [List.nodup_append]
    refine ⟨h, List.nodup_singleton a, ?_⟩
    intro x hx hx'
    simp only [List.mem_singleton] at hx'
    subst hx'
    exact ha hx

theorem nodup_set_insert_all {α : Type} [DecidableEq α] (l s : List α) (h : s.Nodup) :
    (set_insert_all s l).Nodup := by
  unfold set_insert_all
  induction l generalizing s with
  | nil => simpa using h
  | cons a l ih =>
    simp only [List.foldl_cons]
    exact ih _ (nodup_set_insert s a h)

theorem mem_unexhausted (source : Source) (l acc : List Rule) (x : Rule) :
    x ∈ l.foldl (fun une ur => if !source.is_exhausted ur then set_insert une ur else une) acc ↔
      x ∈ acc ∨ (x ∈ l ∧ source.is_exhausted x = false) := by
  induction l generalizing acc with
  | nil => simp
  | cons a l ih =>
    simp only [List.foldl_cons, List.mem_cons]
    rw [ih]
    by_cases hex : source.is_exhausted a = true
    · simp only [hex, Bool.not_true, Bool.false_eq_true, if_false]
      constructor
      · rintro (h | h)
        · exact Or.inl h
        · exact Or.inr ⟨Or.inr h.1, h.2⟩
      · rintro (h | ⟨h | h, h2⟩)
        · exact Or.inl h
        · rw [h, hex] at h2; simp at h2
        · exact Or.inr ⟨h, h2⟩
    · have hex' : source.is_exhausted a = false := by simpa using hex
      simp only [hex', Bool.not_false, if_true]
      rw [mem_set_insert]
      constructor
      · rintro ((h | h) | h)
        · exact Or.inl h
        · exact Or.inr ⟨Or.inl h, by rw [h]; exact hex'⟩
        · exact Or.inr ⟨Or.inr h.1, h.2⟩
      · rintro (h | ⟨h | h, h2⟩)
        · exact Or.inl (Or.inl h)
        · exact Or.inl (Or.inr h)
        · exact Or.inr ⟨h, h2⟩

theorem mem_valid_rules_fold (E : Collaborators AS) (ref_as : AS) (source : Source)
    (rules acc : List Rule) (x : Rule) :
    x ∈ rules.foldl
        (fun valid_rules rule =>
          if rule.is_meta then valid_rules
          else
            set_insert_all valid_rules
              ((E.unify_source rule source.body source.vardecl ref_as).foldl
                (fun une ur => if !source.is_exhausted ur then set_insert une ur else une) []))
        acc ↔
      x ∈ acc ∨ ∃ rule ∈ rules, rule.is_meta = false ∧
        x ∈ E.unify_source rule source.body source.vardecl ref_as ∧
        source.is_exhausted x = false := by
  induction rules generalizing acc with
  | nil => simp
  | cons r rules ih =>
    simp only [List.foldl_cons]
    rw [ih]
    by_cases hm : r.is_meta = true
    · simp only [hm, if_true, List.mem_cons, exists_eq_or_imp, Bool.true_eq_false, false_and,
        false_or]
    · have hm' : r.is_meta = false := by simpa using hm
      simp only [hm', Bool.false_eq_true, if_false, List.mem_cons, exists_eq_or_imp, true_and]
      rw [mem_set_insert_all, mem_unexhausted]
      simp only [List.not_mem_nil, false_or]
      tauto

theorem nodup_valid_rules_fold (E : Collaborators AS) (ref_as : AS) (source : Source)
    (rules acc : List Rule) (h : acc.Nodup) :
    (rules.foldl
        (fun valid_rules rule =>
          if rule.is_meta then valid_rules
          else
            set_insert_all valid_rules
              ((E.unify_source rule source.body source.vardecl ref_as).foldl
                (fun une ur => if !source.is_exhausted ur then set_insert une ur else une) []))
        acc).Nodup := by
  induction rules generalizing acc with
  | nil => simpa using h
  | cons r rules ih =>
    simp only [List.foldl_cons]
    apply ih
    by_cases hm : r.is_meta = true
    · simpa [hm] using h
    · have hm' : r.is_meta = false := by simpa using hm
      simp only [hm', Bool.false_eq_true, if_false]
      exact nodup_set_insert_all _ _ h

/-- C4: a rule is in `get_valid_rules(source)` exactly when it is a specialized
instance produced by unifying some registered rule that is not a meta rule
with the source, and it is not recorded as applied to the source; the result
is a set (no instance twice).  Hence meta rules and rules without instance
contribute nothing.  The function returns the rule set only: registry and
source are not changed. -/
theorem get_valid_rules_exact (E : Collaborators AS) (fc : ForwardChainer AS) (source : Source) :
    (∀ r : Rule, r ∈ get_valid_rules E fc source ↔
      ∃ rule ∈ fc.rules, rule.is_meta = false ∧
        r ∈ E.unify_source rule source.body source.vardecl
          (if fc.search_focus_set then fc.focus_set_as else fc.kb_as) ∧
        source.is_exhausted r = false) ∧
    (get_valid_rules E fc source).Nodup := by
  constructor
  · intro r
    have h := mem_valid_rules_fold E (if fc.search_focus_set then fc.focus_set_as else fc.kb_as)
      source fc.rules [] r
    simp only [List.not_mem_nil, false_or] at h
    exact h
  · exact nodup_valid_rules_fold E (if fc.search_focus_set then fc.focus_set_as else fc.kb_as)
      source fc.rules [] List.nodup_nil

theorem get_valid_rules_enter (E : Collaborators AS) (fc : ForwardChainer AS) (c : Call)
    (source : Source) : get_valid_rules E (fc.enter c) source = get_valid_rules E fc source := rfl

theorem select_rule_empty (E : Collaborators AS) (fc : ForwardChainer AS) (source : Source)
    (h : get_valid_rules E fc source = []) :
    select_rule E fc source =
      (fc.enter (Call.select_rule source.body), { source with exhausted := true },
        (Rule.invalid, 0)) := by
  unfold select_rule
  simp only [get_valid_rules_enter, h, List.isEmpty_nil, if_true]

theorem select_rule_nonempty (E : Collaborators AS) (fc : ForwardChainer AS) (source : Source)
    (h : get_valid_rules E fc source ≠ []) :
    select_rule E fc source =
      ((select_rule_set E (fc.enter (Call.select_rule source.body))
          (get_valid_rules E fc source)).1, source,
        (select_rule_set E (fc.enter (Call.select_rule source.body))
          (get_valid_rules E fc source)).2) := by
  unfold select_rule
  have h2 : (get_valid_rules E fc source).isEmpty = false := by
    cases hv : get_valid_rules E fc source with
    | nil => exact absurd hv h
    | cons a l => rfl
  simp only [get_valid_rules_enter, h2, Bool.false_eq_true, if_false]

theorem select_rule_set_mem (E : Collaborators AS) (fc : ForwardChainer AS)
    (valid_rules : List Rule)
    (hlen : (E.thompson_distribution (valid_rules.map Rule.tv)).length = valid_rules.length)
    (hsum : (E.thompson_distribution (valid_rules.map Rule.tv)).sum ≠ 0) :
    (select_rule_set E fc valid_rules).2.1 ∈ valid_rules := by
  have hne : E.thompson_distribution (valid_rules.map Rule.tv) ≠ [] := by
    intro hnil
    rw [hnil] at hsum
    exact hsum rfl
  have hlt := discrete_distribution_lt (E.thompson_distribution (valid_rules.map Rule.tv))
    (E.randGen fc.rng) hne
  rw [hlen] at hlt
  show valid_rules.getD
      (discrete_distribution (E.thompson_distribution (valid_rules.map Rule.tv))
        (E.randGen fc.rng)) Rule.invalid ∈ valid_rules
  rw [List.getD_eq_getElem valid_rules Rule.invalid hlt]
  exact List.getElem_mem _

/-- C5: when the valid-rule set of the source is empty, `select_rule(source)` sets
`source.exhausted` and returns the pair of the invalid rule `Rule()` and 0.0;
when it is not empty, the source is left as it is and, the Thompson sampling
collaborator giving one weight per valid rule with a positive total, the
returned rule is a member of the valid-rule set. -/
theorem select_rule_exhausts_or_selects_valid (E : Collaborators AS) (fc : ForwardChainer AS)
    (source : Source) :
    (get_valid_rules E fc source = [] →
      (select_rule E fc source).2.1 = { source with exhausted := true } ∧
      (select_rule E fc source).2.2 = (Rule.invalid, 0) ∧
      (select_rule E fc source).2.2.1.is_valid = false) ∧
    (get_valid_rules E fc source ≠ [] →
      (select_rule E fc source).2.1 = source ∧
      ((E.thompson_distribution ((get_valid_rules E fc source).map Rule.tv)).length =
          (get_valid_rules E fc source).length →
        (E.thompson_distribution ((get_valid_rules E fc source).map Rule.tv)).sum ≠ 0 →
        (select_rule E fc source).2.2.1 ∈ get_valid_rules E fc source)) := by
  constructor
  · intro h
    rw [select_rule_empty E fc source h]
    exact ⟨rfl, rfl, rfl⟩
  · intro h
    rw [select_rule_nonempty E fc source h]
    exact ⟨rfl, fun hlen hsum => select_rule_set_mem E _ _ hlen hsum⟩

/-- Witness for C5: a source matched by no rule is exhausted, a source matched by
one rule gets that rule. -/
theorem select_rule_exhausts_or_selects_valid_witness :
    (get_valid_rules (sample_collaborators []) (sample_chainer [] [sample_rule "r" 2 [1]] [])
        ⟨7, none, [], false⟩ = [] ∧
      (select_rule (sample_collaborators []) (sample_chainer [] [sample_rule "r" 2 [1]] [])
        ⟨7, none, [], false⟩).2.1 = ⟨7, none, [], true⟩) ∧
    (get_valid_rules (sample_collaborators []) (sample_chainer [] [sample_rule "r" 2 [1]] [])
        ⟨1, none, [], false⟩ ≠ [] ∧
      (select_rule (sample_collaborators []) (sample_chainer [] [sample_rule "r" 2 [1]] [])
        ⟨1, none, [], false⟩).2.2.1 ∈
        get_valid_rules (sample_collaborators []) (sample_chainer [] [sample_rule "r" 2 [1]] [])
          ⟨1, none, [], false⟩) :=
  ⟨⟨by decide,
    ((select_rule_exhausts_or_selects_valid (sample_collaborators [])
      (sample_chainer [] [sample_rule "r" 2 [1]] []) ⟨7, none, [], false⟩).1 (by decide)).1⟩,
   ⟨by decide,
    ((select_rule_exhausts_or_selects_valid (sample_collaborators [])
      (sample_chainer [] [sample_rule "r" 2 [1]] []) ⟨1, none, [], false⟩).2 (by decide)).2
      (by decide) (by decide)⟩⟩

/-! ## Rule application -/

theorem guard_not_passed (E : Collaborators AS) (ref_as : AS) (varset : List Handle)
    (clauses : List Handle) (clause : Handle) (hmem : clause ∈ clauses)
    (hconst : E.is_constant varset clause = some true)
    (habsent : E.get_atom ref_as clause = some none) :
    constant_clause_guard E ref_as varset clauses ≠ GuardOutcome.passed := by
  induction clauses with
  | nil => simp at hmem
  | cons c rest ih =>
    unfold constant_clause_guard
    by_cases hc : clause = c
    · subst hc
      simp [hconst, habsent]
    · have hrest : clause ∈ rest := by
        rcases List.mem_cons.mp hmem with h | h
        · exact absurd h hc
        · exact h
      rcases hic : E.is_constant varset c with _ | b
      · simp
      · cases b with
        | false => simpa using ih hrest
        | true =>
          rcases hga : E.get_atom ref_as c with _ | o
          · simp
          · cases o with
            | none => simp
            | some x => simpa using ih hrest

theorem apply_rule_guard_blocks (E : Collaborators AS) (fc : ForwardChainer AS) (rule : Rule)
    (hguard : constant_clause_guard E (if fc.search_focus_set then fc.focus_set_as else fc.kb_as)
      rule.varset rule.clauses ≠ GuardOutcome.passed) :
    apply_rule E fc rule = (fc.enter (Call.apply_rule rule), []) := by
  unfold apply_rule
  have hs : (fc.enter (Call.apply_rule rule)).search_focus_set = fc.search_focus_set := rfl
  have hf : (fc.enter (Call.apply_rule rule)).focus_set_as = fc.focus_set_as := rfl
  have hk : (fc.enter (Call.apply_rule rule)).kb_as = fc.kb_as := rfl
  simp only [hs, hf, hk]
  rcases hadd : E.add_atom (E.new_child (if fc.search_focus_set then fc.focus_set_as
      else fc.kb_as)) rule.rule with ⟨d, _ | rh⟩
  · rfl
  · cases hg : constant_clause_guard E (if fc.search_focus_set then fc.focus_set_as
        else fc.kb_as) rule.varset rule.clauses with
    | passed => exact absurd hg hguard
    | absent_constant_clause => rfl
    | raised => rfl

/-- C9: if some clause of the rule is constant with respect to the rule's variable
set and is absent from the reference store (the focus set when one is in
use, else the knowledge base), `apply_rule` returns the empty result set and
leaves the chainer, knowledge base and focus set included, as it was; this
holds whatever the pattern matcher (`execute`, `satisfy`) would do, so the
rule is not executed. -/
theorem apply_rule_constant_clause_guard (E : Collaborators AS) (fc : ForwardChainer AS)
    (rule : Rule) (clause : Handle) (hmem : clause ∈ rule.clauses)
    (hconst : E.is_constant rule.varset clause = some true)
    (habsent : E.get_atom (if fc.search_focus_set then fc.focus_set_as else fc.kb_as) clause =
      some none) :
    apply_rule E fc rule = (fc.enter (Call.apply_rule rule), []) ∧
    (apply_rule E fc rule).1.kb_as = fc.kb_as ∧
    (apply_rule E fc rule).1.focus_set_as = fc.focus_set_as ∧
    ∀ (exec : AS → Handle → AS × Option Handle)
      (sat : AS → AS → Handle → AS × Option (List Handle)),
      apply_rule { E with execute := exec, satisfy := sat } fc rule =
        (fc.enter (Call.apply_rule rule), []) := by
  have h := apply_rule_guard_blocks E fc rule
    (guard_not_passed E _ rule.varset rule.clauses clause hmem hconst habsent)
  refine ⟨h, by rw [h]; rfl, by rw [h]; rfl, ?_⟩
  intro exec sat
  exact apply_rule_guard_blocks { E with execute := exec, satisfy := sat } fc rule
    (guard_not_passed { E with execute := exec, satisfy := sat } _ rule.varset rule.clauses
      clause hmem hconst habsent)

/-- Witness for C9: the rule has the constant clause 7, which is not in the
knowledge base. -/
theorem apply_rule_constant_clause_guard_witness :
    (7 ∈ (sample_rule "r" 1 [1, 7]).clauses ∧
      (sample_collaborators []).is_constant (sample_rule "r" 1 [1, 7]).varset 7 = some true ∧
      (sample_collaborators []).get_atom [1] 7 = some none) ∧
    (apply_rule (sample_collaborators []) (sample_chainer [1] [] []) (sample_rule "r" 1 [1, 7])).2
      = [] :=
  ⟨⟨by decide, by decide, by decide⟩,
   by
    rw [(apply_rule_constant_clause_guard (sample_collaborators []) (sample_chainer [1] [] [])
      (sample_rule "r" 1 [1, 7]) 7 (by decide) (by decide) (by decide)).1]⟩

/-! ## Result normalization -/

theorem set_insert_all_cons {α : Type} [DecidableEq α] (s : List α) (a : α) (l : List α) :
    set_insert_all s (a :: l) = set_insert_all (set_insert s a) l := rfl

theorem set_insert_all_append {α : Type} [DecidableEq α] (s l1 l2 : List α) :
    set_insert_all s (l1 ++ l2) = set_insert_all (set_insert_all s l1) l2 := by
  unfold set_insert_all
  rw [List.foldl_append]

theorem add_outgoing_eq_store_all (E : Collaborators AS) (out : List Handle) :
    ∀ (as : AS) (results : List Handle),
      add_outgoing E as results out =
        ((store_all E as out).1, set_insert_all results (store_all E as out).2.1,
          (store_all E as out).2.2) := by
  induction out with
  | nil => intro as results; rfl
  | cons hc rest ih =>
    intro as results
    unfold add_outgoing store_all
    rcases hadd : E.add_atom as hc with ⟨as1, _ | stored⟩
    · rfl
    · simp only [ih as1 (set_insert results stored), set_insert_all_cons]

theorem store_all_cons_some (E : Collaborators AS) (as as1 : AS) (t stored : Handle)
    (ts : List Handle) (hadd : E.add_atom as t = (as1, some stored)) :
    store_all E as (t :: ts) =
      ((store_all E as1 ts).1, stored :: (store_all E as1 ts).2.1, (store_all E as1 ts).2.2) := by
  rw [store_all, hadd]

theorem store_all_cons_none (E : Collaborators AS) (as as1 : AS) (t : Handle)
    (ts : List Handle) (hadd : E.add_atom as t = (as1, none)) :
    store_all E as (t :: ts) = (as1, [], true) := by
  rw [store_all, hadd]

theorem store_all_append (E : Collaborators AS) (l1 l2 : List Handle) :
    ∀ as : AS, (store_all E as l1).2.2 = false →
      store_all E as (l1 ++ l2) =
        ((store_all E (store_all E as l1).1 l2).1,
          (store_all E as l1).2.1 ++ (store_all E (store_all E as l1).1 l2).2.1,
          (store_all E (store_all E as l1).1 l2).2.2) := by
  induction l1 with
  | nil => intro as _; rfl
  | cons t ts ih =>
    intro as h
    simp only [List.cons_append]
    rcases hadd : E.add_atom as t with ⟨as1, _ | stored⟩
    · rw [store_all_cons_none E as as1 t ts hadd] at h; simp at h
    · rw [store_all_cons_some E as as1 t stored ts hadd] at h ⊢
      rw [store_all_cons_some E as as1 t stored (ts ++ l2) hadd]
      simp only at h ⊢
      rw [ih as1 h]
      simp

theorem unpack_terms_cons (E : Collaborators AS) (h : Handle) (hs : List Handle) :
    unpack_terms E (h :: hs) =
      (if is_wrapper E h then (E.getOutgoingSet h).getD [] else [h]) ++ unpack_terms E hs := by
  simp [unpack_terms]

theorem add_results_eq_store_all (E : Collaborators AS) (hs : List Handle) :
    ∀ (as : AS) (results : List Handle), (add_results E as results hs).2.2 = false →
      (store_all E as (unpack_terms E hs)).2.2 = false ∧
      add_results E as results hs =
        ((store_all E as (unpack_terms E hs)).1,
          set_insert_all results (store_all E as (unpack_terms E hs)).2.1, false) := by
  induction hs with
  | nil => intro as results _; exact ⟨rfl, rfl⟩
  | cons h hs ih =>
    intro as results hok
    rw [unpack_terms_cons]
    unfold add_results at hok ⊢
    by_cases hw : E.get_type h = AtomType.LIST_LINK ∨ E.get_type h = AtomType.SET_LINK
    · have hw' : is_wrapper E h = true := by simp [is_wrapper, hw]
      simp only [hw, if_true] at hok ⊢
      simp only [hw', if_true]
      rcases hout : E.getOutgoingSet h with _ | out
      · rw [hout] at hok; simp at hok
      · rw [hout] at hok
        simp only [Option.getD_some] at hok ⊢
        rw [add_outgoing_eq_store_all] at hok ⊢
        cases hflag : (store_all E as out).2.2 with
        | true => rw [hflag] at hok; simp at hok
        | false =>
          rw [hflag] at hok
          simp only at hok ⊢
          obtain ⟨h1, h2⟩ := ih _ _ hok
          rw [store_all_append E out (unpack_terms E hs) as hflag]
          refine ⟨h1, ?_⟩
          rw [h2, set_insert_all_append]
    · have hw' : is_wrapper E h = false := by simp [is_wrapper, hw]
      simp only [hw, if_false] at hok ⊢
      simp only [hw', Bool.false_eq_true, if_false, List.singleton_append]
      rcases hadd : E.add_atom as h with ⟨as1, _ | stored⟩
      · rw [hadd] at hok; simp at hok
      · rw [hadd] at hok
        rw [store_all_cons_some E as as1 h stored _ hadd]
        simp only at hok ⊢
        obtain ⟨h1, h2⟩ := ih _ _ hok
        refine ⟨h1, ?_⟩
        rw [h2, set_insert_all_cons]

theorem mem_unpack_terms (E : Collaborators AS) (hs : List Handle) (t : Handle) :
    t ∈ unpack_terms E hs ↔
      (t ∈ hs ∧ is_wrapper E t = false) ∨
      ∃ w ∈ hs, is_wrapper E w = true ∧ ∃ out, E.getOutgoingSet w = some out ∧ t ∈ out := by
  unfold unpack_terms
  simp only [List.mem_flatMap]
  constructor
  · rintro ⟨h, hmem, ht⟩
    by_cases hw : is_wrapper E h = true
    · simp only [hw, if_true] at ht
      rcases hout : E.getOutgoingSet h with _ | out
      · rw [hout] at ht; simp at ht
      · rw [hout] at ht
        exact Or.inr ⟨h, hmem, hw, out, hout, by simpa using ht⟩
    · have hw' : is_wrapper E h = false := by simpa using hw
      simp only [hw', Bool.false_eq_true, if_false, List.mem_singleton] at ht
      subst ht
      exact Or.inl ⟨hmem, hw'⟩
  · rintro (⟨hmem, hw⟩ | ⟨w, hmem, hw, out, hout, ht⟩)
    · exact ⟨t, hmem, by simp [hw]⟩
    · exact ⟨w, hmem, by simp [hw, hout, ht]⟩

theorem store_all_stored_versions (E : Collaborators AS) (ts : List Handle) :
    ∀ as : AS, (store_all E as ts).2.2 = false →
      List.Forall₂ (fun t stored => ∃ as0 : AS, (E.add_atom as0 t).2 = some stored) ts
        (store_all E as ts).2.1 := by
  induction ts with
  | nil => intro as _; exact List.Forall₂.nil
  | cons t ts ih =>
    intro as h
    rcases hadd : E.add_atom as t with ⟨as1, _ | stored⟩
    · rw [store_all_cons_none E as as1 t ts hadd] at h; simp at h
    · rw [store_all_cons_some E as as1 t stored ts hadd] at h ⊢
      exact List.Forall₂.cons ⟨as, by rw [hadd]⟩ (ih as1 h)

/-! ## Failures raised during rule application -/

theorem store_all_sound (E : Collaborators AS) (ts : List Handle) :
    ∀ (as : AS) (x : Handle), x ∈ (store_all E as ts).2.1 →
      ∃ t ∈ ts, ∃ as0 : AS, (E.add_atom as0 t).2 = some x := by
  induction ts with
  | nil => intro as x hx; simp [store_all] at hx
  | cons t ts ih =>
    intro as x hx
    rcases hadd : E.add_atom as t with ⟨as1, _ | stored⟩
    · rw [store_all_cons_none E as as1 t ts hadd] at hx; simp at hx
    · rw [store_all_cons_some E as as1 t stored ts hadd] at hx
      rcases List.mem_cons.mp hx with h | h
      · exact ⟨t, by simp, as, by rw [hadd, h]⟩
      · obtain ⟨t', ht', hst⟩ := ih as1 x h
        exact ⟨t', by simp [ht'], hst⟩

theorem add_results_sound (E : Collaborators AS) (hs : List Handle) :
    ∀ (as : AS) (results : List Handle) (x : Handle),
      x ∈ (add_results E as results hs).2.1 →
      x ∈ results ∨ ∃ t ∈ unpack_terms E hs, ∃ as0 : AS, (E.add_atom as0 t).2 = some x := by
  induction hs with
  | nil => intro as results x hx; exact Or.inl hx
  | cons h hs ih =>
    intro as results x hx
    rw [unpack_terms_cons]
    unfold add_results at hx
    by_cases hw : E.get_type h = AtomType.LIST_LINK ∨ E.get_type h = AtomType.SET_LINK
    · have hw' : is_wrapper E h = true := by simp [is_wrapper, hw]
      simp only [hw, if_true] at hx
      simp only [hw', if_true]
      rcases hout : E.getOutgoingSet h with _ | out
      · rw [hout] at hx; exact Or.inl hx
      · rw [hout] at hx
        simp only [Option.getD_some]
        simp only at hx
        rw [add_outgoing_eq_store_all] at hx
        have hstored : ∀ y, y ∈ set_insert_all results (store_all E as out).2.1 →
            y ∈ results ∨ ∃ t ∈ out ++ unpack_terms E hs, ∃ as0 : AS,
              (E.add_atom as0 t).2 = some y := by
          intro y hy
          rcases (mem_set_insert_all _ _ y).mp hy with h1 | h1
          · exact Or.inl h1
          · obtain ⟨t, ht, hst⟩ := store_all_sound E out as y h1
            exact Or.inr ⟨t, by simp [ht], hst⟩
        cases hflag : (store_all E as out).2.2 with
        | true => rw [hflag] at hx; exact hstored x hx
        | false =>
          rw [hflag] at hx
          rcases ih _ _ x hx with h1 | ⟨t, ht, hst⟩
          · exact hstored x h1
          · exact Or.inr ⟨t, by simp [ht], hst⟩
    · have hw' : is_wrapper E h = false := by simp [is_wrapper, hw]
      simp only [hw, if_false] at hx
      simp only [hw', Bool.false_eq_true, if_false]
      rcases hadd : E.add_atom as h with ⟨as1, _ | stored⟩
      · rw [hadd] at hx; exact Or.inl hx
      · rw [hadd] at hx
        rcases ih _ _ x hx with h1 | ⟨t, ht, hst⟩
        · rcases (mem_set_insert _ _ x).mp h1 with h2 | h2
          · exact Or.inl h2
          · exact Or.inr ⟨h, by simp, as, by rw [hadd, h2]⟩
        · exact Or.inr ⟨t, by simp [ht], hst⟩

theorem apply_rule_unfold (E : Collaborators AS) (fc : ForwardChainer AS) (rule : Rule) :
    apply_rule E fc rule =
      match E.add_atom (E.new_child (if fc.search_focus_set then fc.focus_set_as
          else fc.kb_as)) rule.rule with
      | (_, none) => (fc.enter (Call.apply_rule rule), [])
      | (derived_rule_as, some rhcpy) =>
        match constant_clause_guard E (if fc.search_focus_set then fc.focus_set_as
            else fc.kb_as) rule.varset rule.clauses with
        | GuardOutcome.raised => (fc.enter (Call.apply_rule rule), [])
        | GuardOutcome.absent_constant_clause => (fc.enter (Call.apply_rule rule), [])
        | GuardOutcome.passed =>
          if fc.search_focus_set then
            match E.satisfy derived_rule_as fc.kb_as rhcpy with
            | (kb, none) => ({ fc.enter (Call.apply_rule rule) with kb_as := kb }, [])
            | (kb, some rslts) =>
              ({ fc.enter (Call.apply_rule rule) with
                  kb_as := kb, focus_set_as := (add_results E fc.focus_set_as [] rslts).1 },
                (add_results E fc.focus_set_as [] rslts).2.1)
          else
            match E.execute fc.kb_as rhcpy with
            | (kb, none) => ({ fc.enter (Call.apply_rule rule) with kb_as := kb }, [])
            | (kb, some h) =>
              match E.getOutgoingSet h with
              | none => ({ fc.enter (Call.apply_rule rule) with kb_as := kb }, [])
              | some out =>
                ({ fc.enter (Call.apply_rule rule) with kb_as := (add_results E kb [] out).1 },
                  (add_results E kb [] out).2.1) := rfl

theorem apply_rule_results_form (E : Collaborators AS) (fc : ForwardChainer AS) (rule : Rule) :
    (apply_rule E fc rule).2 = [] ∨
    ∃ (store : AS) (raw : List Handle),
      (apply_rule E fc rule).2 = (add_results E store [] raw).2.1 := by
  rw [apply_rule_unfold]
  repeat' split
  all_goals first
    | exact Or.inl rfl
    | exact Or.inr ⟨_, _, rfl⟩

/-- C8: when no call raises, the closure `add_results` of `apply_rule` adds to the
result set exactly the stored versions of the normalized terms, stored one
after the other: the normalized terms are the elements of the outgoing set
of every raw term whose type is List or Set, and every other raw term
itself.  A wrapper is among them only as an element of a wrapper, and the
elements of a wrapper are not unpacked again.  What `apply_rule` returns is
empty or what `add_results` makes of the raw terms, starting from the empty
set. -/
theorem add_results_normalizes (E : Collaborators AS) (as : AS) (results hs : List Handle)
    (hok : (add_results E as results hs).2.2 = false) :
    (add_results E as results hs).1 = (store_all E as (unpack_terms E hs)).1 ∧
    (add_results E as results hs).2.1 =
      set_insert_all results (store_all E as (unpack_terms E hs)).2.1 ∧
    (∀ x, x ∈ (add_results E as results hs).2.1 ↔
      x ∈ results ∨ x ∈ (store_all E as (unpack_terms E hs)).2.1) ∧
    List.Forall₂ (fun t stored => ∃ as0 : AS, (E.add_atom as0 t).2 = some stored)
      (unpack_terms E hs) (store_all E as (unpack_terms E hs)).2.1 ∧
    (∀ t, t ∈ unpack_terms E hs ↔
      (t ∈ hs ∧ is_wrapper E t = false) ∨
      ∃ w ∈ hs, is_wrapper E w = true ∧ ∃ out, E.getOutgoingSet w = some out ∧ t ∈ out) ∧
    (∀ (fc : ForwardChainer AS) (rule : Rule),
      (apply_rule E fc rule).2 = [] ∨
      ∃ (store : AS) (raw : List Handle),
        (apply_rule E fc rule).2 = (add_results E store [] raw).2.1) := by
  obtain ⟨h1, h2⟩ := add_results_eq_store_all E hs as results hok
  refine ⟨by rw [h2], by rw [h2], ?_, store_all_stored_versions E _ as h1,
    mem_unpack_terms E hs, apply_rule_results_form E⟩
  intro x
  rw [h2]
  exact mem_set_insert_all _ _ x

/-- Witness for C8: the raw terms are the List 100, whose outgoing set is the
node 1 and the Set 200, and the node 5: the results are 1, 200 and 5. -/
theorem add_results_normalizes_witness :
    (add_results (sample_collaborators []) [] [] [100, 5]).2.2 = false ∧
    (add_results (sample_collaborators []) [] [] [100, 5]).2.1 = [1, 200, 5] :=
  ⟨by decide,
   by
    rw [(add_results_normalizes (sample_collaborators []) [] [] [100, 5] (by decide)).2.1]
    decide⟩

theorem store_all_append_raised (E : Collaborators AS) (l1 l2 : List Handle) :
    ∀ as : AS, (store_all E as l1).2.2 = true →
      store_all E as (l1 ++ l2) = store_all E as l1 := by
  induction l1 with
  | nil => intro as h; simp [store_all] at h
  | cons t ts ih =>
    intro as h
    simp only [List.cons_append]
    rcases hadd : E.add_atom as t with ⟨as1, _ | stored⟩
    · rw [store_all_cons_none E as as1 t ts hadd, store_all_cons_none E as as1 t _ hadd]
    · rw [store_all_cons_some E as as1 t stored ts hadd] at h ⊢
      rw [store_all_cons_some E as as1 t stored (ts ++ l2) hadd]
      simp only at h
      rw [ih as1 h]

theorem store_all_stops_at_raise (E : Collaborators AS) (as : AS) (pre : List Handle)
    (t : Handle) (post : List Handle)
    (hpre : (store_all E as pre).2.2 = false)
    (hraise : (E.add_atom (store_all E as pre).1 t).2 = none) :
    store_all E as (pre ++ t :: post) =
      ((E.add_atom (store_all E as pre).1 t).1, (store_all E as pre).2.1, true) := by
  rw [store_all_append E pre (t :: post) as hpre]
  rcases hadd : E.add_atom (store_all E as pre).1 t with ⟨as1, _ | stored⟩
  · rw [store_all_cons_none E _ as1 t post hadd]
    simp
  · rw [hadd] at hraise
    simp at hraise

theorem add_results_eq_store_until (E : Collaborators AS) (hs : List Handle) :
    ∀ (as : AS) (results : List Handle),
      add_results E as results hs =
        ((store_all E as (unpack_until_raise E hs).1).1,
          set_insert_all results (store_all E as (unpack_until_raise E hs).1).2.1,
          (store_all E as (unpack_until_raise E hs).1).2.2 || (unpack_until_raise E hs).2) := by
  induction hs with
  | nil => intro as results; rfl
  | cons h hs ih =>
    intro as results
    unfold add_results unpack_until_raise
    by_cases hw : E.get_type h = AtomType.LIST_LINK ∨ E.get_type h = AtomType.SET_LINK
    · have hw' : is_wrapper E h = true := by simp [is_wrapper, hw]
      simp only [hw, if_true, hw']
      rcases hout : E.getOutgoingSet h with _ | out
      · rfl
      · simp only
        rw [add_outgoing_eq_store_all]
        cases hflag : (store_all E as out).2.2 with
        | true =>
          simp only
          rw [store_all_append_raised E out _ as hflag, hflag]
          rfl
        | false =>
          simp only
          rw [ih, store_all_append E out _ as hflag, set_insert_all_append]
    · have hw' : is_wrapper E h = false := by simp [is_wrapper, hw]
      simp only [hw, if_false, hw', Bool.false_eq_true]
      rcases hadd : E.add_atom as h with ⟨as1, _ | stored⟩
      · rw [store_all_cons_none E as as1 h _ hadd]
        rfl
      · rw [store_all_cons_some E as as1 h stored _ hadd]
        simp only
        rw [ih, set_insert_all_cons]

theorem unpack_until_raise_ok (E : Collaborators AS) (hs : List Handle)
    (hok : ∀ w ∈ hs, is_wrapper E w = true → E.getOutgoingSet w ≠ none) :
    unpack_until_raise E hs = (unpack_terms E hs, false) := by
  induction hs with
  | nil => rfl
  | cons h hs ih =>
    have ih2 := ih (fun w hw => hok w (List.mem_cons_of_mem _ hw))
    rw [unpack_terms_cons]
    unfold unpack_until_raise
    by_cases hw : is_wrapper E h = true
    · simp only [hw, if_true]
      rcases hout : E.getOutgoingSet h with _ | out
      · exact absurd hout (hok h (by simp) hw)
      · simp only [ih2, Option.getD_some]
    · have hw' : is_wrapper E h = false := by simpa using hw
      simp only [hw', Bool.false_eq_true, if_false, ih2, List.singleton_append]

theorem unpack_until_raise_stop (E : Collaborators AS) (rpre : List Handle) (w : Handle)
    (rpost : List Handle)
    (hok : ∀ x ∈ rpre, is_wrapper E x = true → E.getOutgoingSet x ≠ none)
    (hw : is_wrapper E w = true) (hraise : E.getOutgoingSet w = none) :
    unpack_until_raise E (rpre ++ w :: rpost) = (unpack_terms E rpre, true) := by
  induction rpre with
  | nil =>
    simp only [List.nil_append]
    unfold unpack_until_raise
    simp only [hw, if_true, hraise]
    rfl
  | cons h hs ih =>
    have ih2 := ih (fun x hx => hok x (List.mem_cons_of_mem _ hx))
    rw [unpack_terms_cons]
    simp only [List.cons_append]
    unfold unpack_until_raise
    by_cases hh : is_wrapper E h = true
    · simp only [hh, if_true]
      rcases hout : E.getOutgoingSet h with _ | out
      · exact absurd hout (hok h (by simp) hh)
      · simp only [ih2, Option.getD_some]
    · have hh' : is_wrapper E h = false := by simpa using hh
      simp only [hh', Bool.false_eq_true, if_false, ih2, List.singleton_append]

/-- C7 (as amended): `apply_rule` returns a result set whatever is raised inside
the `try` block.  The result is empty when the failure is raised before
`add_results` runs: by the copy of the rule into the child store, by the
constant-clause check, by the pattern matcher (`satisfy`, `execute`) or by
`getOutgoingSet` on the executed result.  Once the pattern matcher has
returned, the result is what `add_results` has accumulated from the empty
set, and that is exactly the set of the stored versions of the normalized
terms that precede the failing call: `add_results` stores the normalized
terms in order, up to the first List or Set whose outgoing set cannot be
read; storing stops at the first term on which `add_atom` raises and keeps
the versions stored before it, one for each term before it. -/
theorem apply_rule_absorbs_failure (E : Collaborators AS) (fc : ForwardChainer AS)
    (rule : Rule) :
    ((E.add_atom (E.new_child (if fc.search_focus_set then fc.focus_set_as else fc.kb_as))
        rule.rule).2 = none → (apply_rule E fc rule).2 = []) ∧
    (constant_clause_guard E (if fc.search_focus_set then fc.focus_set_as else fc.kb_as)
        rule.varset rule.clauses = GuardOutcome.raised → (apply_rule E fc rule).2 = []) ∧
    (∀ (derived : AS) (rhcpy : Handle),
      E.add_atom (E.new_child (if fc.search_focus_set then fc.focus_set_as else fc.kb_as))
        rule.rule = (derived, some rhcpy) →
      constant_clause_guard E (if fc.search_focus_set then fc.focus_set_as else fc.kb_as)
        rule.varset rule.clauses = GuardOutcome.passed →
      (fc.search_focus_set = true → (E.satisfy derived fc.kb_as rhcpy).2 = none →
        (apply_rule E fc rule).2 = []) ∧
      (fc.search_focus_set = false → (E.execute fc.kb_as rhcpy).2 = none →
        (apply_rule E fc rule).2 = []) ∧
      (fc.search_focus_set = false → ∀ h, (E.execute fc.kb_as rhcpy).2 = some h →
        E.getOutgoingSet h = none → (apply_rule E fc rule).2 = []) ∧
      (fc.search_focus_set = true → ∀ rslts, (E.satisfy derived fc.kb_as rhcpy).2 = some rslts →
        (apply_rule E fc rule).2 = (add_results E fc.focus_set_as [] rslts).2.1) ∧
      (fc.search_focus_set = false → ∀ h out, (E.execute fc.kb_as rhcpy).2 = some h →
        E.getOutgoingSet h = some out →
        (apply_rule E fc rule).2 =
          (add_results E (E.execute fc.kb_as rhcpy).1 [] out).2.1) ∧
      (fc.search_focus_set = true → ∀ rslts, (E.satisfy derived fc.kb_as rhcpy).2 = some rslts →
        (apply_rule E fc rule).2 =
          set_insert_all []
            (store_all E fc.focus_set_as (unpack_until_raise E rslts).1).2.1) ∧
      (fc.search_focus_set = false → ∀ h out, (E.execute fc.kb_as rhcpy).2 = some h →
        E.getOutgoingSet h = some out →
        (apply_rule E fc rule).2 =
          set_insert_all []
            (store_all E (E.execute fc.kb_as rhcpy).1 (unpack_until_raise E out).1).2.1)) ∧
    (∀ (as : AS) (results hs : List Handle),
      add_results E as results hs =
        ((store_all E as (unpack_until_raise E hs).1).1,
          set_insert_all results (store_all E as (unpack_until_raise E hs).1).2.1,
          (store_all E as (unpack_until_raise E hs).1).2.2 || (unpack_until_raise E hs).2)) ∧
    (∀ (as : AS) (pre : List Handle) (t : Handle) (post : List Handle),
      (store_all E as pre).2.2 = false →
      (E.add_atom (store_all E as pre).1 t).2 = none →
      store_all E as (pre ++ t :: post) =
        ((E.add_atom (store_all E as pre).1 t).1, (store_all E as pre).2.1, true)) ∧
    (∀ (as : AS) (ts : List Handle), (store_all E as ts).2.2 = false →
      List.Forall₂ (fun t stored => ∃ as0 : AS, (E.add_atom as0 t).2 = some stored) ts
        (store_all E as ts).2.1) ∧
    (∀ hs : List Handle, (∀ w ∈ hs, is_wrapper E w = true → E.getOutgoingSet w ≠ none) →
      unpack_until_raise E hs = (unpack_terms E hs, false)) ∧
    (∀ (rpre : List Handle) (w : Handle) (rpost : List Handle),
      (∀ x ∈ rpre, is_wrapper E x = true → E.getOutgoingSet x ≠ none) →
      is_wrapper E w = true → E.getOutgoingSet w = none →
      unpack_until_raise E (rpre ++ w :: rpost) = (unpack_terms E rpre, true)) ∧
    (∀ (as : AS) (hs : List Handle) (x : Handle), x ∈ (add_results E as [] hs).2.1 →
      ∃ t ∈ unpack_terms E hs, ∃ as0 : AS, (E.add_atom as0 t).2 = some x) := by
  refine ⟨?_, ?_, ?_, fun as results hs => add_results_eq_store_until E hs as results,
    store_all_stops_at_raise E, fun as ts h => store_all_stored_versions E ts as h,
    unpack_until_raise_ok E, unpack_until_raise_stop E, ?_⟩
  · intro h
    rw [apply_rule_unfold]
    rcases hadd : E.add_atom (E.new_child (if fc.search_focus_set then fc.focus_set_as
        else fc.kb_as)) rule.rule with ⟨d, _ | rh⟩
    · rfl
    · rw [hadd] at h; simp at h
  · intro h
    rw [apply_rule_unfold, h]
    rcases E.add_atom (E.new_child (if fc.search_focus_set then fc.focus_set_as
        else fc.kb_as)) rule.rule with ⟨d, _ | rh⟩ <;> rfl
  · intro derived rhcpy hadd hguard
    rw [apply_rule_unfold, hadd, hguard]
    refine ⟨?_, ?_, ?_, ?_, ?_, ?_, ?_⟩
    · intro hf hsat
      simp only [hf, if_true]
      rcases hs : E.satisfy derived fc.kb_as rhcpy with ⟨kb, _ | rslts⟩
      · rfl
      · rw [hs] at hsat; simp at hsat
    · intro hf hex
      simp only [hf, Bool.false_eq_true, if_false]
      rcases he : E.execute fc.kb_as rhcpy with ⟨kb, _ | h⟩
      · rfl
      · rw [he] at hex; simp at hex
    · intro hf h hex hout
      simp only [hf, Bool.false_eq_true, if_false]
      rcases he : E.execute fc.kb_as rhcpy with ⟨kb, _ | h'⟩
      · rfl
      · rw [he] at hex
        simp only [Option.some.injEq] at hex
        subst hex
        simp only [hout]
    · intro hf rslts hsat
      simp only [hf, if_true]
      rcases hs : E.satisfy derived fc.kb_as rhcpy with ⟨kb, _ | rslts'⟩
      · rw [hs] at hsat; simp at hsat
      · rw [hs] at hsat
        simp only [Option.some.injEq] at hsat
        subst hsat
        rfl
    · intro hf h out hex hout
      simp only [hf, Bool.false_eq_true, if_false]
      rcases he : E.execute fc.kb_as rhcpy with ⟨kb, _ | h'⟩
      · rw [he] at hex; simp at hex
      · rw [he] at hex
        simp only [Option.some.injEq] at hex
        subst hex
        simp only [hout]
    · intro hf rslts hsat
      simp only [hf, if_true]
      rcases hs : E.satisfy derived fc.kb_as rhcpy with ⟨kb, _ | rslts'⟩
      · rw [hs] at hsat; simp at hsat
      · rw [hs] at hsat
        simp only [Option.some.injEq] at hsat
        subst hsat
        show (add_results E fc.focus_set_as [] rslts').2.1 = _
        rw [add_results_eq_store_until]
    · intro hf h out hex hout
      simp only [hf, Bool.false_eq_true, if_false]
      rcases he : E.execute fc.kb_as rhcpy with ⟨kb, _ | h'⟩
      · rw [he] at hex; simp at hex
      · rw [he] at hex
        simp only [Option.some.injEq] at hex
        subst hex
        simp only [hout]
        rw [add_results_eq_store_until]
  · intro as hs x hx
    rcases add_results_sound E hs as [] x hx with h | h
    · simp at h
    · exact h

/-- Witness for C7 (as amended): executing the rule atom 0 raises, and the result
is empty; storing the terms 4 and 13 where `add_atom` raises on 13 keeps
the stored version of 4. -/
theorem apply_rule_absorbs_failure_witness :
    (((sample_collaborators []).add_atom ((sample_collaborators []).new_child [1]) 0 =
        ([1, 0], some 0) ∧
      constant_clause_guard (sample_collaborators []) [1] (sample_rule "r" 0 [1]).varset
        (sample_rule "r" 0 [1]).clauses = GuardOutcome.passed ∧
      ((sample_collaborators []).execute [1] 0).2 = none) ∧
    (apply_rule (sample_collaborators []) (sample_chainer [1] [] []) (sample_rule "r" 0 [1])).2
      = []) ∧
    (((store_all (sample_collaborators [13]) [1] [4]).2.2 = false ∧
      ((sample_collaborators [13]).add_atom (store_all (sample_collaborators [13]) [1] [4]).1
        13).2 = none) ∧
    (store_all (sample_collaborators [13]) [1] ([4] ++ 13 :: [])).2.1 = [4]) :=
  ⟨⟨⟨by decide, by decide, by decide⟩,
    ((apply_rule_absorbs_failure (sample_collaborators []) (sample_chainer [1] [] [])
      (sample_rule "r" 0 [1])).2.2.1 [1, 0] 0 (by decide) (by decide)).2.1 rfl (by decide)⟩,
   ⟨⟨by decide, by decide⟩,
    by
      rw [(apply_rule_absorbs_failure (sample_collaborators [13]) (sample_chainer [1] [] [])
        (sample_rule "r" 3 [1])).2.2.2.2.1 [1] [4] 13 [] (by decide) (by decide)]
      decide⟩⟩

/-- Counterexample to C7 as stated: executing the rule atom 3 yields the Set 300
of the terms 4 and 13; `add_atom` stores 4 and raises on 13.  A call inside
the `try` block has raised, and `apply_rule` returns the set holding 4, not
the empty set. -/
theorem apply_rule_failure_after_first_result :
    ((sample_collaborators [13]).add_atom [1, 4] 13).2 = none ∧
    (add_results (sample_collaborators [13]) [1] [] [4, 13]).2.2 = true ∧
    (apply_rule (sample_collaborators [13]) (sample_chainer [1] [] [])
      (sample_rule "r" 3 [1])).2 = [4] ∧
    (apply_rule (sample_collaborators [13]) (sample_chainer [1] [] [])
      (sample_rule "r" 3 [1])).2 ≠ [] := by
  refine ⟨by decide, by decide, by decide, by decide⟩

/-! ## The fallback pass over all rules -/

theorem apply_rule_frame (E : Collaborators AS) (fc : ForwardChainer AS) (rule : Rule) :
    (apply_rule E fc rule).1.calls = fc.calls ++ [Call.apply_rule rule] ∧
    (apply_rule E fc rule).1.iteration = fc.iteration ∧
    (apply_rule E fc rule).1.sources = fc.sources ∧
    (apply_rule E fc rule).1.rules = fc.rules ∧
    (apply_rule E fc rule).1.fcstat = fc.fcstat ∧
    (apply_rule E fc rule).1.jobs = fc.jobs ∧
    (apply_rule E fc rule).1.rng = fc.rng ∧
    (apply_rule E fc rule).1.launched = fc.launched ∧
    (apply_rule E fc rule).1.search_focus_set = fc.search_focus_set := by
  rw [apply_rule_unfold]
  repeat' split
  all_goals exact ⟨rfl, rfl, rfl, rfl, rfl, rfl, rfl, rfl, rfl⟩

theorem apply_all_rules_loop_spec (E : Collaborators AS) (rules : List Rule) :
    ∀ fc : ForwardChainer AS,
      (apply_all_rules_loop E fc rules).calls = fc.calls ++ rules.map Call.apply_rule ∧
      (apply_all_rules_loop E fc rules).iteration = fc.iteration ∧
      (apply_all_rules_loop E fc rules).sources = fc.sources ∧
      (apply_all_rules_loop E fc rules).rules = fc.rules ∧
      (apply_all_rules_loop E fc rules).jobs = fc.jobs ∧
      (apply_all_rules_loop E fc rules).rng = fc.rng ∧
      (apply_all_rules_loop E fc rules).launched = fc.launched ∧
      ∃ recs : List InferenceRecord,
        (apply_all_rules_loop E fc rules).fcstat = fc.fcstat ++ recs ∧
        recs.map InferenceRecord.rule = rules ∧
        ∀ r ∈ recs, r.iteration = fc.iteration := by
  induction rules with
  | nil =>
    intro fc
    exact ⟨by simp [apply_all_rules_loop], rfl, rfl, rfl, rfl, rfl, rfl, [], by
      simp [apply_all_rules_loop], rfl, by simp⟩
  | cons rule rest ih =>
    intro fc
    obtain ⟨hc, hi, hs, hr, hf, hj, hg, hl, _⟩ := apply_rule_frame E fc rule
    rw [apply_all_rules_loop]
    obtain ⟨ic, ii, is, ir, ij, ig, il, recs, if1, if2, if3⟩ := ih
      { (apply_rule E fc rule).1 with
        kb_as := (E.add_node (apply_rule E fc rule).1.kb_as AtomType.CONCEPT_NODE
          "dummy-source").1,
        fcstat := (apply_rule E fc rule).1.fcstat ++
          [⟨(apply_rule E fc rule).1.iteration,
            (E.add_node (apply_rule E fc rule).1.kb_as AtomType.CONCEPT_NODE "dummy-source").2,
            rule, (apply_rule E fc rule).2⟩] }
    simp only at ic ii is ir ij ig il if1 if3
    refine ⟨?_, ?_, ?_, ?_, ?_, ?_, ?_, ?_⟩
    · rw [ic, hc]; simp
    · rw [ii, hi]
    · rw [is, hs]
    · rw [ir, hr]
    · rw [ij, hj]
    · rw [ig, hg]
    · rw [il, hl]
    · refine ⟨⟨(apply_rule E fc rule).1.iteration,
          (E.add_node (apply_rule E fc rule).1.kb_as AtomType.CONCEPT_NODE "dummy-source").2,
          rule, (apply_rule E fc rule).2⟩ :: recs, ?_, ?_, ?_⟩
      · rw [if1, hf]; simp
      · simp [if2]
      · intro r hr'
        rcases List.mem_cons.mp hr' with h | h
        · rw [h]; exact hi
        · rw [if3 r h, hi]

/-- C10: when the source pool is empty at the start of `do_chain`, `do_chain`
returns without any fuel for `do_step_rec`: the member functions entered are
`apply_all_rules` and then `apply_rule(rule)` once for every registered
rule, in the order of the registry (no `do_step_rec`, `do_step`,
`select_source`, `select_rule`, no application on a premise); iteration
counter, source pool, registry, job counter and random generator are as
before; and exactly one inference record per rule is appended, in the same
order, with the iteration index unchanged. -/
theorem do_chain_empty_pool_applies_all_rules (E : Collaborators AS) (cfg : UREConfig)
    (eager : Nat → Bool) (fuel : Nat) (fc : ForwardChainer AS)
    (hempty : fc.sources.empty = true) :
    ∃ fc', do_chain E cfg eager fuel fc = some fc' ∧
      fc'.calls = fc.calls ++ Call.apply_all_rules :: fc.rules.map Call.apply_rule ∧
      fc'.iteration = fc.iteration ∧
      fc'.sources = fc.sources ∧
      fc'.rules = fc.rules ∧
      fc'.jobs = fc.jobs ∧
      fc'.rng = fc.rng ∧
      ∃ recs : List InferenceRecord,
        fc'.fcstat = fc.fcstat ++ recs ∧
        recs.map InferenceRecord.rule = fc.rules ∧
        ∀ r ∈ recs, r.iteration = fc.iteration := by
  refine ⟨apply_all_rules E fc, ?_, ?_⟩
  · unfold do_chain
    rw [if_pos hempty]
  · obtain ⟨hc, hi, hs, hr, hj, hg, _, recs, h1, h2, h3⟩ :=
      apply_all_rules_loop_spec E fc.rules (fc.enter Call.apply_all_rules)
    refine ⟨?_, hi, hs, hr, hj, hg, recs, h1, h2, h3⟩
    unfold apply_all_rules
    rw [hc]
    simp [ForwardChainer.enter]

/-- Witness for C10: no source and two rules; both are applied once, in order. -/
theorem do_chain_empty_pool_applies_all_rules_witness :
    (sample_chainer [1] [sample_rule "R1" 1 [1], sample_rule "R2" 2 [1]] []).sources.empty
      = true ∧
    ∃ fc', do_chain (sample_collaborators []) ⟨5, 1, false⟩ (fun _ => true) 0
        (sample_chainer [1] [sample_rule "R1" 1 [1], sample_rule "R2" 2 [1]] []) = some fc' ∧
      fc'.calls = [Call.apply_all_rules, Call.apply_rule (sample_rule "R1" 1 [1]),
        Call.apply_rule (sample_rule "R2" 2 [1])] ∧
      fc'.iteration = 0 :=
  ⟨rfl,
   by
    obtain ⟨fc', h1, h2, h3, _⟩ :=
      do_chain_empty_pool_applies_all_rules (sample_collaborators []) ⟨5, 1, false⟩
        (fun _ => true) 0
        (sample_chainer [1] [sample_rule "R1" 1 [1], sample_rule "R2" 2 [1]] []) rfl
    exact ⟨fc', h1, h2, h3⟩⟩

/-! ## One step -/

theorem do_step_cases (E : Collaborators AS) (cfg : UREConfig) (fuel : Nat)
    (fc fc' : ForwardChainer AS) (h : do_step E cfg fuel fc = some fc') :
    ∃ fc3 r,
      select_source E cfg fuel
        (expand_meta_rules E { fc.enter Call.do_step with iteration := fc.iteration + 1 }) =
          some (fc3, r) ∧
      ((r = none ∧ fc' = fc3) ∨
        (∃ i, r = some i ∧ fc3.sources.sources[i]? = none ∧ fc' = fc3) ∨
        (∃ i source, r = some i ∧ fc3.sources.sources[i]? = some source ∧
          (select_rule E fc3 source).2.2.1.is_valid = false ∧
          fc' = (select_rule E fc3 source).1.set_source i (select_rule E fc3 source).2.1) ∨
        (∃ i source fca src2 products, r = some i ∧ fc3.sources.sources[i]? = some source ∧
          (select_rule E fc3 source).2.2.1.is_valid = true ∧
          apply_rule_source E (select_rule E fc3 source).1 (select_rule E fc3 source).2.2.1 i
            (select_rule E fc3 source).2.1 = (fca, src2, products) ∧
          fc' =
            { fca with
              sources := (fca.set_source i src2).sources.insert products src2
                (select_rule E fc3 source).2.2.2,
              fcstat := fca.fcstat ++
                [⟨fc.iteration, src2.body, (select_rule E fc3 source).2.2.1, products⟩] })) := by
  unfold do_step at h
  simp only at h
  rw [show (fc.enter Call.do_step).iteration = fc.iteration from rfl] at h
  rcases hsel : select_source E cfg fuel
      (expand_meta_rules E { fc.enter Call.do_step with iteration := fc.iteration + 1 })
    with _ | ⟨fc3, r⟩
  · rw [hsel] at h
    simp at h
  · refine ⟨fc3, r, rfl, ?_⟩
    rw [hsel] at h
    cases r with
    | none =>
      simp only [Option.some.injEq] at h
      exact Or.inl ⟨rfl, h.symm⟩
    | some i =>
      simp only [List.get?_eq_getElem?] at h
      rcases hsrc : fc3.sources.sources[i]? with _ | source
      · rw [hsrc] at h
        simp only [Option.some.injEq] at h
        exact Or.inr (Or.inl ⟨i, rfl, hsrc, h.symm⟩)
      · rw [hsrc] at h
        simp only at h
        by_cases hv : (select_rule E fc3 source).2.2.1.is_valid = true
        · simp only [hv, Bool.not_true, Bool.false_eq_true, if_false, Option.some.injEq] at h
          exact Or.inr (Or.inr (Or.inr ⟨i, source, _, _, _, rfl, hsrc, hv, rfl, h.symm⟩))
        · have hv' : (select_rule E fc3 source).2.2.1.is_valid = false := by simpa using hv
          simp only [hv', Bool.not_false, if_true, Option.some.injEq] at h
          exact Or.inr (Or.inr (Or.inl ⟨i, source, rfl, hsrc, hv', h.symm⟩))

theorem applications_append (l1 l2 : List Call) :
    applications (l1 ++ l2) = applications l1 ++ applications l2 := by
  induction l1 with
  | nil => rfl
  | cons c l1 ih =>
    cases c <;> simp [applications, ih]

theorem do_step_calls_append (l1 l2 : List Call) :
    do_step_calls (l1 ++ l2) = do_step_calls l1 + do_step_calls l2 := by
  simp [do_step_calls, List.count_append]

theorem select_source_frame (E : Collaborators AS) (cfg : UREConfig) :
    ∀ (fuel : Nat) (fc fc' : ForwardChainer AS) (r : Option Nat),
      select_source E cfg fuel fc = some (fc', r) →
      applications fc'.calls = applications fc.calls ∧
      do_step_calls fc'.calls = do_step_calls fc.calls ∧
      fc'.iteration = fc.iteration ∧ fc'.jobs = fc.jobs ∧ fc'.launched = fc.launched ∧
      (fc'.sources.sources = fc.sources.sources ∨
        fc'.sources.sources = fc.sources.sources.map Source.reset_exhausted) ∧
      (fc.sources.exhausted = true → fc'.sources.exhausted = true) := by
  intro fuel
  induction fuel with
  | zero => intro fc fc' r h; simp [select_source] at h
  | succ n ih =>
    intro fc fc' r h
    rw [select_source_succ] at h
    have hcalls : applications (fc.enter Call.select_source).calls = applications fc.calls := by
      simp [ForwardChainer.enter, applications_append, applications]
    have hcount : do_step_calls (fc.enter Call.select_source).calls = do_step_calls fc.calls := by
      simp [ForwardChainer.enter, do_step_calls]
    by_cases h0 : (fc.sources.get_weights E.weight_policy).sum = 0
    · rw [if_pos h0] at h
      by_cases hr : cfg.retry_exhausted_sources = true
      · rw [hr, if_pos rfl] at h
        obtain ⟨h1, h2, h3, h4, h5, h6, h7⟩ := ih _ fc' r h
        refine ⟨h1.trans hcalls, h2.trans hcount, h3, h4, h5, ?_, h7⟩
        rcases h6 with h6 | h6
        · exact Or.inr h6
        · refine Or.inr ?_
          rw [h6]
          simp [SourceSet.reset_exhausted, Source.reset_exhausted, Function.comp_def]
      · have hr' : cfg.retry_exhausted_sources = false := by simpa using hr
        rw [hr'] at h
        simp only [Bool.false_eq_true, if_false, Option.some.injEq, Prod.mk.injEq] at h
        obtain ⟨hfc, _⟩ := h
        subst hfc
        exact ⟨hcalls, hcount, rfl, rfl, rfl, Or.inl rfl, fun _ => rfl⟩
    · rw [if_neg h0] at h
      simp only [Option.some.injEq, Prod.mk.injEq] at h
      obtain ⟨hfc, _⟩ := h
      subst hfc
      exact ⟨hcalls, hcount, rfl, rfl, rfl, Or.inl rfl, fun hx => hx⟩

theorem getD_mem_or_default {α : Type} (l : List α) (n : Nat) (d : α) :
    l.getD n d ∈ l ∨ l.getD n d = d := by
  by_cases h : n < l.length
  · rw [List.getD_eq_getElem l d h]
    exact Or.inl (List.getElem_mem _)
  · rw [List.getD_eq_default l d (by omega)]
    exact Or.inr rfl

theorem select_rule_frame (E : Collaborators AS) (fc : ForwardChainer AS) (source : Source) :
    (select_rule E fc source).1.calls = fc.calls ++ [Call.select_rule source.body] ∧
    (select_rule E fc source).1.sources = fc.sources ∧
    (select_rule E fc source).1.iteration = fc.iteration ∧
    (select_rule E fc source).1.jobs = fc.jobs ∧
    (select_rule E fc source).1.launched = fc.launched ∧
    (select_rule E fc source).1.fcstat = fc.fcstat ∧
    (select_rule E fc source).2.1.rules = source.rules ∧
    ((select_rule E fc source).2.2.1.is_valid = true →
      (select_rule E fc source).2.2.1 ∉ source.rules) := by
  by_cases h : get_valid_rules E fc source = []
  · rw [select_rule_empty E fc source h]
    refine ⟨rfl, rfl, rfl, rfl, rfl, rfl, rfl, ?_⟩
    intro hv
    simp [Rule.is_valid, Rule.invalid] at hv
  · rw [select_rule_nonempty E fc source h]
    refine ⟨rfl, rfl, rfl, rfl, rfl, rfl, rfl, ?_⟩
    intro hv hmem
    have hsel : (select_rule_set E (fc.enter (Call.select_rule source.body))
        (get_valid_rules E fc source)).2.1 ∈ get_valid_rules E fc source ∨
        (select_rule_set E (fc.enter (Call.select_rule source.body))
        (get_valid_rules E fc source)).2.1 = Rule.invalid :=
      getD_mem_or_default _ _ _
    rcases hsel with hin | hdef
    · have hx := (mem_valid_rules_fold E
        (if fc.search_focus_set then fc.focus_set_as else fc.kb_as) source fc.rules [] _).mp hin
      simp only [List.not_mem_nil, false_or] at hx
      obtain ⟨_, _, _, _, hne⟩ := hx
      simp [Source.is_exhausted] at hne
      exact hne hmem
    · simp only at hv
      rw [hdef] at hv
      simp [Rule.is_valid, Rule.invalid] at hv

theorem apply_rule_source_frame (E : Collaborators AS) (fc : ForwardChainer AS) (rule : Rule)
    (i : Nat) (source : Source) :
    (apply_rule_source E fc rule i source).1.calls =
      fc.calls ++ [Call.apply_rule_on rule i, Call.apply_rule rule] ∧
    (apply_rule_source E fc rule i source).1.sources = fc.sources ∧
    (apply_rule_source E fc rule i source).1.iteration = fc.iteration ∧
    (apply_rule_source E fc rule i source).1.jobs = fc.jobs ∧
    (apply_rule_source E fc rule i source).1.launched = fc.launched ∧
    (apply_rule_source E fc rule i source).2.1 =
      { source with rules := set_insert source.rules rule } := by
  obtain ⟨hc, hi, hs, _, _, hj, _, hl, _⟩ :=
    apply_rule_frame E (fc.enter (Call.apply_rule_on rule i)) rule
  unfold apply_rule_source
  refine ⟨?_, hs, hi, hj, hl, rfl⟩
  simp only
  rw [hc]
  simp [ForwardChainer.enter]

theorem source_set_insert_extends (products : List Handle) (origin : Source) (prob : Prob) :
    ∀ ss : SourceSet, ∃ extra : List Source,
      (ss.insert products origin prob).sources = ss.sources ++ extra ∧
      (ss.insert products origin prob).exhausted = ss.exhausted := by
  induction products with
  | nil => intro ss; exact ⟨[], by simp [SourceSet.insert], rfl⟩
  | cons h rest ih =>
    intro ss
    unfold SourceSet.insert at ih ⊢
    simp only [List.foldl_cons]
    by_cases hp : (ss.sources.any fun s => decide (s.body = h)) = true
    · simp only [hp, if_true]
      exact ih ss
    · simp only [hp, Bool.false_eq_true, if_false]
      obtain ⟨extra, h1, h2⟩ := ih { ss with sources := ss.sources ++ [⟨h, none, [], false⟩] }
      exact ⟨⟨h, none, [], false⟩ :: extra, by rw [h1]; simp, h2⟩

theorem rules_kept_refl (pool : List Source) : rules_kept pool pool :=
  fun _ s h => ⟨s, h, fun _ hr => hr⟩

theorem rules_kept_trans (a b c : List Source) (h1 : rules_kept a b) (h2 : rules_kept b c) :
    rules_kept a c := by
  intro i s hs
  obtain ⟨s1, hs1, hr1⟩ := h1 i s hs
  obtain ⟨s2, hs2, hr2⟩ := h2 i s1 hs1
  exact ⟨s2, hs2, fun r hr => hr2 r (hr1 r hr)⟩

theorem rules_kept_reset (pool : List Source) :
    rules_kept pool (pool.map Source.reset_exhausted) := by
  intro i s hs
  exact ⟨s.reset_exhausted, by simp [hs], fun _ hr => hr⟩

theorem rules_kept_append (pool extra : List Source) : rules_kept pool (pool ++ extra) := by
  intro i s hs
  refine ⟨s, ?_, fun _ hr => hr⟩
  obtain ⟨hlt, _⟩ := List.getElem?_eq_some.mp hs
  rw [List.getElem?_append_left hlt]
  exact hs

theorem rules_kept_set (pool : List Source) (i : Nat) (s0 s1 : Source)
    (h0 : pool[i]? = some s0) (hsub : ∀ r ∈ s0.rules, r ∈ s1.rules) :
    rules_kept pool (pool.set i s1) := by
  intro j s hs
  by_cases hj : i = j
  · subst hj
    rw [h0] at hs
    simp only [Option.some.injEq] at hs
    subst hs
    obtain ⟨hlt, _⟩ := List.getElem?_eq_some.mp h0
    exact ⟨s1, by simp [hlt], hsub⟩
  · exact ⟨s, by rw [List.getElem?_set_ne hj]; exact hs, fun _ hr => hr⟩

theorem select_source_rules_kept (E : Collaborators AS) (cfg : UREConfig) (fuel : Nat)
    (fc fc' : ForwardChainer AS) (r : Option Nat)
    (h : select_source E cfg fuel fc = some (fc', r)) :
    rules_kept fc.sources.sources fc'.sources.sources ∧
    rules_kept fc'.sources.sources fc.sources.sources ∧
    fc'.sources.sources.length = fc.sources.sources.length := by
  obtain ⟨_, _, _, _, _, h6, _⟩ := select_source_frame E cfg fuel fc fc' r h
  rcases h6 with h6 | h6
  · rw [h6]; exact ⟨rules_kept_refl _, rules_kept_refl _, rfl⟩
  · rw [h6]
    refine ⟨rules_kept_reset _, ?_, by simp⟩
    intro i s hs
    simp only [List.getElem?_map, Option.map_eq_some'] at hs
    obtain ⟨s0, hs0, hs1⟩ := hs
    exact ⟨s0, hs0, fun r hr => by rw [← hs1] at hr; exact hr⟩

theorem do_step_summary (E : Collaborators AS) (cfg : UREConfig) (fuel : Nat)
    (fc fc' : ForwardChainer AS) (h : do_step E cfg fuel fc = some fc') :
    fc'.iteration = fc.iteration + 1 ∧
    fc'.jobs = fc.jobs ∧
    fc'.launched = fc.launched ∧
    do_step_calls fc'.calls = do_step_calls fc.calls + 1 ∧
    fc.sources.sources.length ≤ fc'.sources.sources.length ∧
    (fc.sources.exhausted = true → fc'.sources.exhausted = true) ∧
    rules_kept fc.sources.sources fc'.sources.sources ∧
    (applications fc'.calls = applications fc.calls ∨
      ∃ rule i, applications fc'.calls = applications fc.calls ++ [(rule, i)] ∧
        (∃ s0, fc.sources.sources[i]? = some s0 ∧ rule ∉ s0.rules) ∧
        (∃ s1, fc'.sources.sources[i]? = some s1 ∧ rule ∈ s1.rules)) := by
  obtain ⟨fc3, r, hsel, hcases⟩ := do_step_cases E cfg fuel fc fc' h
  obtain ⟨ha, hd, hi, hj, hl, _, hex⟩ := select_source_frame E cfg fuel _ fc3 r hsel
  obtain ⟨hk1, _, hlen⟩ := select_source_rules_kept E cfg fuel _ fc3 r hsel
  have ha' : applications fc3.calls = applications fc.calls := by
    rw [ha]
    show applications (fc.calls ++ [Call.do_step]) = applications fc.calls
    simp [applications_append, applications]
  have hd' : do_step_calls fc3.calls = do_step_calls fc.calls + 1 := by
    rw [hd]
    show do_step_calls (fc.calls ++ [Call.do_step]) = do_step_calls fc.calls + 1
    simp [do_step_calls]
  have hi' : fc3.iteration = fc.iteration + 1 := hi
  have hj' : fc3.jobs = fc.jobs := hj
  have hl' : fc3.launched = fc.launched := hl
  have hex' : fc.sources.exhausted = true → fc3.sources.exhausted = true := hex
  have hk1' : rules_kept fc.sources.sources fc3.sources.sources := hk1
  have hlen' : fc3.sources.sources.length = fc.sources.sources.length := hlen
  rcases hcases with ⟨_, hfc⟩ | ⟨i, _, _, hfc⟩ | ⟨i, source, _, hsrc, _, hfc⟩ |
      ⟨i, source, fca, src2, products, _, hsrc, hv, happ, hfc⟩
  · subst hfc
    exact ⟨hi', hj', hl', hd', by omega, hex', hk1', Or.inl ha'⟩
  · subst hfc
    exact ⟨hi', hj', hl', hd', by omega, hex', hk1', Or.inl ha'⟩
  · obtain ⟨sc, ss, si, sj, sl, _, sr, _⟩ := select_rule_frame E fc3 source
    subst hfc
    refine ⟨si.trans hi', sj.trans hj', sl.trans hl', ?_, ?_, ?_, ?_, Or.inl ?_⟩
    · show do_step_calls (select_rule E fc3 source).1.calls = _
      rw [sc, do_step_calls_append, hd']
      simp [do_step_calls]
    · show _ ≤ ((select_rule E fc3 source).1.sources.sources.set i _).length
      rw [ss]
      simp [hlen']
    · intro hx
      show (select_rule E fc3 source).1.sources.exhausted = true
      rw [ss]
      exact hex' hx
    · show rules_kept _ ((select_rule E fc3 source).1.sources.sources.set i _)
      rw [ss]
      exact rules_kept_trans _ _ _ hk1'
        (rules_kept_set _ i source _ hsrc (fun r hr => by rw [sr]; exact hr))
    · show applications (select_rule E fc3 source).1.calls = _
      rw [sc, applications_append, ha']
      simp [applications]
  · obtain ⟨sc, ss, si, sj, sl, _, sr, snot⟩ := select_rule_frame E fc3 source
    obtain ⟨ac, as, ai, aj, al, asrc⟩ :=
      apply_rule_source_frame E (select_rule E fc3 source).1 (select_rule E fc3 source).2.2.1 i
        (select_rule E fc3 source).2.1
    rw [happ] at ac as ai aj al asrc
    simp only at ac as ai aj al asrc
    obtain ⟨extra, hins, hflag⟩ :=
      source_set_insert_extends products src2 (select_rule E fc3 source).2.2.2
        (fca.set_source i src2).sources
    have hpool : fc'.sources.sources = fc3.sources.sources.set i src2 ++ extra := by
      rw [hfc]
      show ((fca.set_source i src2).sources.insert products src2
        (select_rule E fc3 source).2.2.2).sources = _
      rw [hins]
      show fca.sources.sources.set i src2 ++ extra = _
      rw [as, ss]
    have hlt : i < fc3.sources.sources.length := (List.getElem?_eq_some.mp hsrc).1
    have hrule_in : (select_rule E fc3 source).2.2.1 ∈ src2.rules := by
      rw [asrc]
      exact (mem_set_insert _ _ _).mpr (Or.inr rfl)
    have hsub : ∀ r ∈ source.rules, r ∈ src2.rules := by
      intro r hr
      rw [asrc]
      exact (mem_set_insert _ _ _).mpr (Or.inl (by rw [sr]; exact hr))
    refine ⟨?_, ?_, ?_, ?_, ?_, ?_, ?_, Or.inr ⟨(select_rule E fc3 source).2.2.1, i, ?_, ?_, ?_⟩⟩
    · rw [hfc]; exact ai.trans (si.trans hi')
    · rw [hfc]; exact aj.trans (sj.trans hj')
    · rw [hfc]; exact al.trans (sl.trans hl')
    · rw [hfc]
      show do_step_calls fca.calls = _
      rw [ac, sc, do_step_calls_append, do_step_calls_append, hd']
      simp [do_step_calls]
    · rw [hpool]
      simp only [List.length_append, List.length_set]
      omega
    · intro hx
      rw [hfc]
      show ((fca.set_source i src2).sources.insert products src2
        (select_rule E fc3 source).2.2.2).exhausted = true
      rw [hflag]
      show fca.sources.exhausted = true
      rw [as, ss]
      exact hex' hx
    · rw [hpool]
      exact rules_kept_trans _ _ _ hk1'
        (rules_kept_trans _ _ _ (rules_kept_set _ i source src2 hsrc hsub)
          (rules_kept_append _ _))
    · rw [hfc]
      show applications fca.calls = _
      rw [ac, sc, applications_append, applications_append, ha']
      simp [applications]
    · have hlt0 : i < fc.sources.sources.length := by omega
      refine ⟨fc.sources.sources[i], List.getElem?_eq_getElem hlt0, ?_⟩
      intro hmem
      obtain ⟨s', hs', hr'⟩ := hk1' i _ (List.getElem?_eq_getElem hlt0)
      rw [hsrc] at hs'
      simp only [Option.some.injEq] at hs'
      subst hs'
      exact snot hv (hr' _ hmem)
    · refine ⟨src2, ?_, hrule_in⟩
      rw [hpool, List.getElem?_append_left (by simpa using hlt)]
      simp [hlt]

/-! ## No duplicate application -/

theorem do_step_applied_once (E : Collaborators AS) (cfg : UREConfig) (fuel : Nat)
    (fc fc' : ForwardChainer AS) (hinv : applied_once fc)
    (h : do_step E cfg fuel fc = some fc') : applied_once fc' := by
  obtain ⟨_, _, _, _, _, _, hkept, happ⟩ := do_step_summary E cfg fuel fc fc' h
  obtain ⟨hnd, hrec⟩ := hinv
  have hold : ∀ p ∈ applications fc.calls,
      ∃ s, fc'.sources.sources[p.2]? = some s ∧ p.1 ∈ s.rules := by
    intro p hp
    obtain ⟨s, hs, hr⟩ := hrec p hp
    obtain ⟨s', hs', hr'⟩ := hkept p.2 s hs
    exact ⟨s', hs', hr' _ hr⟩
  rcases happ with heq | ⟨rule, i, heq, ⟨s0, hs0, hnot⟩, ⟨s1, hs1, hin⟩⟩
  · rw [applied_once, heq]
    exact ⟨hnd, hold⟩
  · rw [applied_once, heq]
    constructor
    · rw [List.nodup_append]
      refine ⟨hnd, List.nodup_singleton _, ?_⟩
      intro p hp hp'
      simp only [List.mem_singleton] at hp'
      subst hp'
      obtain ⟨s, hs, hr⟩ := hrec _ hp
      rw [hs0] at hs
      simp only [Option.some.injEq] at hs
      subst hs
      exact hnot hr
    · intro p hp
      rcases List.mem_append.mp hp with hp | hp
      · exact hold p hp
      · simp only [List.mem_singleton] at hp
        subst hp
        exact ⟨s1, hs1, hin⟩

theorem do_step_rec_succ (E : Collaborators AS) (cfg : UREConfig) (eager : Nat → Bool)
    (fuel : Nat) (fc : ForwardChainer AS) :
    do_step_rec E cfg eager (fuel + 1) fc =
      if termination cfg (fc.enter Call.do_step_rec) then some (fc.enter Call.do_step_rec)
      else if (fc.jobs + 1) % 2 ^ 32 < to_unsigned cfg.jobs then
        if eager fc.launched then
          (do_step E cfg fuel
            { fc.enter Call.do_step_rec with
              jobs := (fc.jobs + 1) % 2 ^ 32, launched := fc.launched + 1 }).bind fun fc2 =>
            (do_step_rec E cfg eager fuel fc2).map fun fc3 =>
              { fc3 with jobs := (fc3.jobs + (2 ^ 32 - 1)) % 2 ^ 32 }
        else
          (do_step_rec E cfg eager fuel
            { fc.enter Call.do_step_rec with
              jobs := (fc.jobs + 1) % 2 ^ 32, launched := fc.launched + 1 }).bind fun fc2 =>
            (do_step E cfg fuel fc2).map fun fc3 =>
              { fc3 with jobs := (fc3.jobs + (2 ^ 32 - 1)) % 2 ^ 32 }
      else
        (do_step E cfg fuel (fc.enter Call.do_step_rec)).bind fun fc2 =>
          do_step_rec E cfg eager fuel fc2 := rfl

theorem do_step_rec_preserves (E : Collaborators AS) (cfg : UREConfig) (eager : Nat → Bool)
    (P : ForwardChainer AS → Prop)
    (henter : ∀ fc, P fc → P (fc.enter Call.do_step_rec))
    (hjobs : ∀ (fc : ForwardChainer AS) (j l : Nat), P fc → P { fc with jobs := j, launched := l })
    (hstep : ∀ fuel fc fc', P fc → do_step E cfg fuel fc = some fc' → P fc') :
    ∀ (fuel : Nat) (fc fc' : ForwardChainer AS),
      P fc → do_step_rec E cfg eager fuel fc = some fc' → P fc' := by
  intro fuel
  induction fuel with
  | zero => intro fc fc' _ h; simp [do_step_rec] at h
  | succ n ih =>
    intro fc fc' hP h
    rw [do_step_rec_succ] at h
    by_cases ht : termination cfg (fc.enter Call.do_step_rec) = true
    · rw [if_pos ht] at h
      simp only [Option.some.injEq] at h
      subst h
      exact henter fc hP
    · rw [if_neg ht] at h
      by_cases hj : (fc.jobs + 1) % 2 ^ 32 < to_unsigned cfg.jobs
      · rw [if_pos hj] at h
        have hP1 : P { fc.enter Call.do_step_rec with
            jobs := (fc.jobs + 1) % 2 ^ 32, launched := fc.launched + 1 } :=
          hjobs _ _ _ (henter fc hP)
        by_cases he : eager fc.launched = true
        · rw [if_pos he] at h
          simp only [Option.bind_eq_some, Option.map_eq_some'] at h
          obtain ⟨fc2, h2, fc3, h3, hfc⟩ := h
          subst hfc
          have hP3 := ih fc2 fc3 (hstep _ _ _ hP1 h2) h3
          exact hjobs fc3 _ fc3.launched hP3
        · rw [if_neg he] at h
          simp only [Option.bind_eq_some, Option.map_eq_some'] at h
          obtain ⟨fc2, h2, fc3, h3, hfc⟩ := h
          subst hfc
          have hP3 := hstep _ _ _ (ih _ fc2 hP1 h2) h3
          exact hjobs fc3 _ fc3.launched hP3
      · rw [if_neg hj] at h
        simp only [Option.bind_eq_some] at h
        obtain ⟨fc2, h2, h3⟩ := h
        exact ih fc2 fc' (hstep _ _ _ (henter fc hP) h2) h3

theorem applied_once_enter (fc : ForwardChainer AS) (h : applied_once fc) :
    applied_once (fc.enter Call.do_step_rec) := by
  unfold applied_once at h ⊢
  have hc : applications (fc.enter Call.do_step_rec).calls = applications fc.calls := by
    simp [ForwardChainer.enter, applications_append, applications]
  rw [hc]
  exact h

theorem apply_all_rules_no_application (E : Collaborators AS) (fc : ForwardChainer AS) :
    applications (apply_all_rules E fc).calls = applications fc.calls := by
  obtain ⟨hc, _⟩ := apply_all_rules_loop_spec E fc.rules (fc.enter Call.apply_all_rules)
  unfold apply_all_rules
  rw [hc, applications_append]
  have h1 : applications (fc.enter Call.apply_all_rules).calls = applications fc.calls := by
    simp [ForwardChainer.enter, applications_append, applications]
  have h2 : ∀ rules : List Rule, applications (rules.map Call.apply_rule) = [] := by
    intro rules
    induction rules with
    | nil => rfl
    | cons r rs ih => simpa [applications] using ih
  rw [h1, h2]
  simp

/-- C3: no pair of a concrete rule and a premise is applied twice.  The invariant
`applied_once` (the applications recorded so far are pairwise distinct and
each applied rule is in the applied-rule set of its premise) is kept by every
`do_step` and by every run of `do_step_rec`, whatever the schedule of the
launched steps; so in a run of `do_chain` started with an empty log the
applications `apply_rule(rule, source)` are pairwise distinct.  This rests on
`apply_rule(rule, source)` inserting the rule in `source.rules`, and on
`get_valid_rules`, hence `select_rule`, yielding no rule of `source.rules`. -/
theorem no_duplicate_application (E : Collaborators AS) (cfg : UREConfig) :
    (∀ (fuel : Nat) (fc fc' : ForwardChainer AS),
      applied_once fc → do_step E cfg fuel fc = some fc' → applied_once fc') ∧
    (∀ (eager : Nat → Bool) (fuel : Nat) (fc fc' : ForwardChainer AS),
      applied_once fc → do_step_rec E cfg eager fuel fc = some fc' → applied_once fc') ∧
    (∀ (eager : Nat → Bool) (fuel : Nat) (fc fc' : ForwardChainer AS),
      fc.calls = [] → do_chain E cfg eager fuel fc = some fc' →
      (applications fc'.calls).Nodup) ∧
    (∀ (fc : ForwardChainer AS) (rule : Rule) (i : Nat) (source : Source),
      rule ∈ (apply_rule_source E fc rule i source).2.1.rules) ∧
    (∀ (fc : ForwardChainer AS) (source : Source) (r : Rule),
      r ∈ get_valid_rules E fc source → r ∉ source.rules) ∧
    (∀ (fc : ForwardChainer AS) (source : Source),
      (select_rule E fc source).2.2.1.is_valid = true →
      (select_rule E fc source).2.2.1 ∉ source.rules) := by
  have hrec : ∀ (eager : Nat → Bool) (fuel : Nat) (fc fc' : ForwardChainer AS),
      applied_once fc → do_step_rec E cfg eager fuel fc = some fc' → applied_once fc' :=
    fun eager => do_step_rec_preserves E cfg eager applied_once applied_once_enter
      (fun _ _ _ h => h) (fun fuel fc fc' => do_step_applied_once E cfg fuel fc fc')
  refine ⟨fun fuel fc fc' => do_step_applied_once E cfg fuel fc fc', hrec, ?_, ?_, ?_, ?_⟩
  · intro eager fuel fc fc' hempty h
    have hinit : applied_once fc := by
      unfold applied_once
      rw [hempty]
      exact ⟨List.nodup_nil, fun p hp => by simp [applications] at hp⟩
    unfold do_chain at h
    by_cases hp : fc.sources.empty = true
    · rw [if_pos hp] at h
      simp only [Option.some.injEq] at h
      subst h
      rw [apply_all_rules_no_application]
      exact hinit.1
    · rw [if_neg hp] at h
      exact (hrec eager fuel fc fc' hinit h).1
  · intro fc rule i source
    rw [(apply_rule_source_frame E fc rule i source).2.2.2.2.2]
    exact (mem_set_insert _ _ _).mpr (Or.inr rfl)
  · intro fc source r hr hmem
    have hx := (mem_valid_rules_fold E
      (if fc.search_focus_set then fc.focus_set_as else fc.kb_as) source fc.rules [] r).mp hr
    simp only [List.not_mem_nil, false_or] at hx
    obtain ⟨_, _, _, _, hne⟩ := hx
    simp [Source.is_exhausted] at hne
    exact hne hmem
  · intro fc source hv
    exact (select_rule_frame E fc source).2.2.2.2.2.2.2 hv

/-- Witness for C3: one premise and one rule matching it, five iterations allowed;
the rule is applied to the premise once. -/
theorem no_duplicate_application_witness :
    (sample_chainer [1] [sample_rule "r" 2 [1]] [⟨1, none, [], false⟩]).calls = [] ∧
    ∃ fc', do_chain (sample_collaborators []) ⟨5, 1, false⟩ (fun _ => true) 9
        (sample_chainer [1] [sample_rule "r" 2 [1]] [⟨1, none, [], false⟩]) = some fc' ∧
      (applications fc'.calls).Nodup :=
  ⟨rfl,
   by
    have hsome : (do_chain (sample_collaborators []) ⟨5, 1, false⟩ (fun _ => true) 9
        (sample_chainer [1] [sample_rule "r" 2 [1]] [⟨1, none, [], false⟩])).isSome = true := by
      decide
    obtain ⟨fc', hfc'⟩ := Option.isSome_iff_exists.mp hsome
    exact ⟨fc', hfc',
      (no_duplicate_application (sample_collaborators []) ⟨5, 1, false⟩).2.2.1 (fun _ => true) 9
        _ fc' rfl hfc'⟩⟩

/-! ## Termination of the main loop -/

theorem select_source_terminates (E : Collaborators AS) (cfg : UREConfig) (fuel : Nat)
    (fc : ForwardChainer AS)
    (hpre : cfg.retry_exhausted_sources = false ∨
      (fc.sources.sources ≠ [] ∧ ∀ s, 0 < E.weight_policy s)) :
    ∃ fc' r, select_source E cfg (fuel + 2) fc = some (fc', r) := by
  by_cases h0 : (fc.sources.get_weights E.weight_policy).sum = 0
  · rcases hpre with hr | ⟨hne, hpos⟩
    · rw [select_source_succ, if_pos h0, hr]
      exact ⟨_, _, rfl⟩
    · by_cases hr : cfg.retry_exhausted_sources = true
      · have h1 : (fc.sources.reset_exhausted.get_weights E.weight_policy).sum ≠ 0 := by
          have hpos' := reset_weights_pos E fc.sources hne hpos
          omega
        exact ⟨_, _, select_source_retry_once E cfg hr fuel fc h0 h1⟩
      · have hr' : cfg.retry_exhausted_sources = false := by simpa using hr
        rw [select_source_succ, if_pos h0, hr']
        exact ⟨_, _, rfl⟩
  · rw [select_source_succ, if_neg h0]
    exact ⟨_, _, rfl⟩

theorem do_step_terminates (E : Collaborators AS) (cfg : UREConfig) (fuel : Nat)
    (fc : ForwardChainer AS)
    (hpre : cfg.retry_exhausted_sources = false ∨
      (fc.sources.sources ≠ [] ∧ ∀ s, 0 < E.weight_policy s)) :
    ∃ fc', do_step E cfg (fuel + 2) fc = some fc' := by
  obtain ⟨fc3, r, hsel⟩ := select_source_terminates E cfg fuel
    (expand_meta_rules E { fc.enter Call.do_step with iteration := fc.iteration + 1 }) hpre
  unfold do_step
  simp only
  rw [show (fc.enter Call.do_step).iteration = fc.iteration from rfl, hsel]
  cases r with
  | none => exact ⟨_, rfl⟩
  | some i =>
    simp only
    rcases fc3.sources.sources.get? i with _ | source
    · exact ⟨_, rfl⟩
    · simp only
      split <;> exact ⟨_, rfl⟩

theorem termination_iff (cfg : UREConfig) (fc : ForwardChainer AS) :
    termination cfg fc = true ↔
      (fc.sources.exhausted = true ∨
        (0 ≤ cfg.maximum_iterations ∧ cfg.maximum_iterations ≤ fc.iteration)) := by
  unfold termination
  by_cases h : fc.sources.exhausted = true
  · simp [h]
  · by_cases h2 : 0 ≤ cfg.maximum_iterations ∧ cfg.maximum_iterations ≤ fc.iteration
    · simp [h, h2]
    · simp only [h, Bool.false_eq_true, if_false, h2, false_or]

theorem sequential_run (E : Collaborators AS) (cfg : UREConfig) (eager : Nat → Bool)
    (hmax : 0 ≤ cfg.maximum_iterations) :
    ∀ (k fuel : Nat) (fc : ForwardChainer AS),
      cfg.maximum_iterations ≤ fc.iteration + k →
      ¬ ((fc.jobs + 1) % 2 ^ 32 < to_unsigned cfg.jobs) →
      (cfg.retry_exhausted_sources = false ∨
        (fc.sources.sources ≠ [] ∧ ∀ s, 0 < E.weight_policy s)) →
      k + 2 ≤ fuel →
      ∃ fc', do_step_rec E cfg eager fuel fc = some fc' ∧
        termination cfg fc' = true ∧
        do_step_calls fc'.calls ≤ do_step_calls fc.calls + k := by
  intro k
  induction k with
  | zero =>
    intro fuel fc hit _ _ hfuel
    obtain ⟨f, rfl⟩ : ∃ f, fuel = f + 1 := ⟨fuel - 1, by omega⟩
    have ht : termination cfg (fc.enter Call.do_step_rec) = true :=
      (termination_iff cfg _).mpr (Or.inr ⟨hmax, by simpa using hit⟩)
    rw [do_step_rec_succ, if_pos ht]
    refine ⟨_, rfl, ht, ?_⟩
    simp [ForwardChainer.enter, do_step_calls]
  | succ k ih =>
    intro fuel fc hit hj hpre hfuel
    obtain ⟨f, rfl⟩ : ∃ f, fuel = f + 3 := ⟨fuel - 3, by omega⟩
    rw [do_step_rec_succ]
    have hc : do_step_calls (fc.enter Call.do_step_rec).calls = do_step_calls fc.calls := by
      simp [ForwardChainer.enter, do_step_calls]
    by_cases ht : termination cfg (fc.enter Call.do_step_rec) = true
    · rw [if_pos ht]
      exact ⟨_, rfl, ht, by rw [hc]; omega⟩
    · rw [if_neg ht, if_neg hj]
      obtain ⟨fc2, h2⟩ := do_step_terminates E cfg f (fc.enter Call.do_step_rec) hpre
      obtain ⟨hi, hjobs, _, hcount, hlen, _, _, _⟩ := do_step_summary E cfg _ _ fc2 h2
      have hpre2 : cfg.retry_exhausted_sources = false ∨
          (fc2.sources.sources ≠ [] ∧ ∀ s, 0 < E.weight_policy s) := by
        rcases hpre with h | ⟨hne, hpos⟩
        · exact Or.inl h
        · refine Or.inr ⟨?_, hpos⟩
          intro hnil
          rw [hnil] at hlen
          have : (fc.enter Call.do_step_rec).sources.sources = [] :=
            List.eq_nil_of_length_eq_zero (by simpa using hlen)
          exact hne this
      obtain ⟨fc', h3, ht', hcnt⟩ := ih (f + 2) fc2
        (by rw [hi]; show cfg.maximum_iterations ≤ fc.iteration + 1 + (k : Int)
            push_cast at hit; omega)
        (by rw [hjobs]; exact hj) hpre2 (by omega)
      refine ⟨fc', ?_, ht', ?_⟩
      · rw [h2]; exact h3
      · rw [hcount, hc] at hcnt
        omega

theorem unbounded_run_returns_exhausted (E : Collaborators AS) (cfg : UREConfig)
    (eager : Nat → Bool) (hneg : cfg.maximum_iterations < 0) :
    ∀ (fuel : Nat) (fc fc' : ForwardChainer AS),
      do_step_rec E cfg eager fuel fc = some fc' → fc'.sources.exhausted = true := by
  intro fuel
  induction fuel with
  | zero => intro fc fc' h; simp [do_step_rec] at h
  | succ n ih =>
    intro fc fc' h
    rw [do_step_rec_succ] at h
    by_cases ht : termination cfg (fc.enter Call.do_step_rec) = true
    · rw [if_pos ht] at h
      simp only [Option.some.injEq] at h
      subst h
      rcases (termination_iff cfg _).mp ht with hx | ⟨h0, _⟩
      · exact hx
      · omega
    · rw [if_neg ht] at h
      by_cases hj : (fc.jobs + 1) % 2 ^ 32 < to_unsigned cfg.jobs
      · rw [if_pos hj] at h
        by_cases he : eager fc.launched = true
        · rw [if_pos he] at h
          simp only [Option.bind_eq_some, Option.map_eq_some'] at h
          obtain ⟨fc2, _, fc3, h3, hfc⟩ := h
          subst hfc
          exact ih fc2 fc3 h3
        · rw [if_neg he] at h
          simp only [Option.bind_eq_some, Option.map_eq_some'] at h
          obtain ⟨fc2, h2, fc3, h3, hfc⟩ := h
          subst hfc
          exact (do_step_summary E cfg _ fc2 fc3 h3).2.2.2.2.2.1 (ih _ fc2 h2)
      · rw [if_neg hj] at h
        simp only [Option.bind_eq_some] at h
        obtain ⟨fc2, _, h3⟩ := h
        exact ih fc2 fc' h3

theorem do_step_none (E : Collaborators AS) (cfg : UREConfig) (fuel : Nat)
    (fc : ForwardChainer AS)
    (h : select_source E cfg fuel
      (expand_meta_rules E { fc.enter Call.do_step with iteration := fc.iteration + 1 }) = none) :
    do_step E cfg fuel fc = none := by
  unfold do_step
  simp only
  rw [show (fc.enter Call.do_step).iteration = fc.iteration from rfl, h]

/-- C2 (as amended): with `maximum_iterations = N >= 0`, a job count of at most 1
(no step is launched asynchronously), `_jobs = 0` and a pool on which
`select_source` returns (retry disabled, or a non-empty pool whose premises
have a positive weight when not exhausted), `do_step_rec` started at
iteration 0 returns, in a state where `termination()` holds, after at most
`N` calls of `do_step`.  With `maximum_iterations < 0`, `do_step_rec` returns
only in a state where the pool's exhausted flag is set, under every modelled
schedule.  `termination()` is true exactly when `_sources.exhausted` holds or
`0 <= maximum_iterations <= _iteration`. -/
theorem do_step_rec_terminates (E : Collaborators AS) (cfg : UREConfig) (eager : Nat → Bool) :
    (∀ (fc : ForwardChainer AS) (fuel : Nat),
      0 ≤ cfg.maximum_iterations → to_unsigned cfg.jobs ≤ 1 → fc.jobs = 0 →
      fc.iteration = 0 →
      (cfg.retry_exhausted_sources = false ∨
        (fc.sources.sources ≠ [] ∧ ∀ s, 0 < E.weight_policy s)) →
      cfg.maximum_iterations.toNat + 2 ≤ fuel →
      ∃ fc', do_step_rec E cfg eager fuel fc = some fc' ∧
        termination cfg fc' = true ∧
        do_step_calls fc'.calls ≤ do_step_calls fc.calls + cfg.maximum_iterations.toNat) ∧
    (cfg.maximum_iterations < 0 →
      ∀ (fuel : Nat) (fc fc' : ForwardChainer AS),
        do_step_rec E cfg eager fuel fc = some fc' → fc'.sources.exhausted = true) ∧
    (∀ fc : ForwardChainer AS, termination cfg fc = true ↔
      (fc.sources.exhausted = true ∨
        (0 ≤ cfg.maximum_iterations ∧ cfg.maximum_iterations ≤ fc.iteration))) := by
  refine ⟨?_, unbounded_run_returns_exhausted E cfg eager, termination_iff cfg⟩
  intro fc fuel hmax hjobs hj0 hit hpre hfuel
  apply sequential_run E cfg eager hmax cfg.maximum_iterations.toNat fuel fc
  · rw [hit, Int.toNat_of_nonneg hmax]; omega
  · rw [hj0]
    have : (0 + 1) % 2 ^ 32 = 1 := by norm_num
    rw [this]
    omega
  · exact hpre
  · exact hfuel

/-- Witness for C2 (as amended): one premise, one rule, two iterations allowed, one
job. -/
theorem do_step_rec_terminates_witness :
    ∃ fc', do_step_rec (sample_collaborators []) ⟨2, 1, false⟩ (fun _ => true) 4
        (sample_chainer [1] [sample_rule "r" 2 [1]] [⟨1, none, [], false⟩]) = some fc' ∧
      termination ⟨2, 1, false⟩ fc' = true ∧
      do_step_calls fc'.calls ≤ 0 + 2 :=
  (do_step_rec_terminates (sample_collaborators []) ⟨2, 1, false⟩ (fun _ => true)).1
    (sample_chainer [1] [sample_rule "r" 2 [1]] [⟨1, none, [], false⟩]) 4
    (by decide) (by decide) rfl rfl (Or.inl rfl) (by decide)

/-- Counterexample to C2 as stated.  With `maximum_iterations = 1` and two jobs,
when the step launched with `std::async` runs only once it is waited for,
the recursive call still reads iteration 0 and runs a step in line:
`do_step_rec` started at iteration 0 returns after two calls of `do_step`.
With retry enabled and an empty pool, `do_step_rec` never returns. -/
theorem do_step_rec_overshoots_with_two_jobs :
    (sample_chainer [1] [sample_rule "r" 2 [1]] [⟨1, none, [], false⟩]).iteration = 0 ∧
    (do_step_rec (sample_collaborators []) ⟨1, 2, false⟩ (fun _ => false) 6
        (sample_chainer [1] [sample_rule "r" 2 [1]] [⟨1, none, [], false⟩])).map
      (fun fc => do_step_calls fc.calls) = some 2 ∧
    ∀ fuel, do_step_rec (sample_collaborators []) ⟨1, 1, true⟩ (fun _ => true) fuel
        (sample_chainer [1] [] []) = none := by
  refine ⟨rfl, by decide, ?_⟩
  intro fuel
  cases fuel with
  | zero => rfl
  | succ n =>
    rw [do_step_rec_succ]
    rw [if_neg (by decide), if_neg (by decide)]
    rw [do_step_none]
    · rfl
    · exact select_source_diverges (sample_collaborators []) ⟨1, 1, true⟩ rfl n _
        (by decide) (by decide)

/-! ## The in-flight counter -/

theorem do_step_jobs (E : Collaborators AS) (cfg : UREConfig) (fuel : Nat)
    (fc fc' : ForwardChainer AS) (h : do_step E cfg fuel fc = some fc') :
    fc'.jobs = fc.jobs :=
  (do_step_summary E cfg fuel fc fc' h).2.1

theorem to_unsigned_of_range (n : Int) (h0 : 0 ≤ n) (h1 : n < 2 ^ 32) :
    (to_unsigned n : Int) = n := by
  unfold to_unsigned
  rw [Int.emod_eq_of_lt h0 h1, Int.toNat_of_nonneg h0]

theorem to_unsigned_lt (n : Int) : to_unsigned n < 2 ^ 32 := by
  unfold to_unsigned
  have h : n % (2 ^ 32 : Int) < 2 ^ 32 := Int.emod_lt_of_pos n (by norm_num)
  have h0 : 0 ≤ n % (2 ^ 32 : Int) := Int.emod_nonneg n (by norm_num)
  omega

theorem in_flight_frames_set (a b : TaskStatus) :
    ∀ (l : List Frame) (k : Nat), l.get? k = some (Frame.waits a) →
      in_flight_frames (l.set k (Frame.waits b)) = in_flight_frames l
  | [], _, h => by simp at h
  | f :: rest, 0, h => by
    simp at h
    subst h
    simp [in_flight_frames]
  | f :: rest, k + 1, h => by
    have ih := in_flight_frames_set a b rest k (by simpa using h)
    cases f <;> simp [in_flight_frames, ih]

theorem count_running_le_in_flight :
    ∀ l : List Frame, l.count (Frame.waits TaskStatus.running) ≤ in_flight_frames l
  | [] => by simp [in_flight_frames]
  | Frame.tail :: rest => by
    have ih := count_running_le_in_flight rest
    simpa [List.count_cons, in_flight_frames] using ih
  | Frame.waits ft :: rest => by
    have ih := count_running_le_in_flight rest
    rw [List.count_cons]
    simp only [in_flight_frames]
    split <;> omega

theorem task_step_frame (E : Collaborators AS) (cfg : UREConfig) (fuel : Nat) (k : Nat)
    (s : Threads AS) :
    (task_step E cfg fuel k s).pc = s.pc ∧
    (task_step E cfg fuel k s).fc.jobs = s.fc.jobs ∧
    in_flight (task_step E cfg fuel k s) = in_flight s ∧
    (s.stack = [] → (task_step E cfg fuel k s).stack = []) := by
  unfold task_step
  rcases hk : s.stack.get? k with _ | f
  · exact ⟨rfl, rfl, rfl, fun h => h⟩
  · cases f with
    | tail => exact ⟨rfl, rfl, rfl, fun h => h⟩
    | waits ft =>
      cases ft with
      | pending =>
        refine ⟨rfl, rfl, in_flight_frames_set _ _ _ _ hk, fun h => ?_⟩
        rw [h] at hk
        simp at hk
      | running =>
        simp only
        rcases hd : do_step E cfg fuel s.fc with _ | fc1
        · exact ⟨rfl, rfl, rfl, fun h => h⟩
        · refine ⟨rfl, do_step_jobs E cfg fuel _ _ hd, in_flight_frames_set _ _ _ _ hk,
            fun h => ?_⟩
          rw [h] at hk
          simp at hk
      | finished => exact ⟨rfl, rfl, rfl, fun h => h⟩

theorem main_step_invariant (E : Collaborators AS) (cfg : UREConfig) (fuel : Nat) (j0 : Nat)
    (s : Threads AS)
    (hj : s.fc.jobs = j0 + in_flight s)
    (hb : s.fc.jobs + 1 ≤ to_unsigned cfg.jobs)
    (hd : s.pc = Pc.done → s.stack = []) :
    (main_step E cfg fuel s).fc.jobs = j0 + in_flight (main_step E cfg fuel s) ∧
    (main_step E cfg fuel s).fc.jobs + 1 ≤ to_unsigned cfg.jobs ∧
    ((main_step E cfg fuel s).pc = Pc.done → (main_step E cfg fuel s).stack = []) := by
  have h32 := to_unsigned_lt cfg.jobs
  obtain ⟨fc, pc, stack⟩ := s
  simp only [in_flight] at hj hb hd ⊢
  cases pc with
  | call =>
    simp only [main_step]
    by_cases ht : termination cfg (fc.enter Call.do_step_rec) = true
    · rw [if_pos ht]
      exact ⟨hj, hb, fun h => by cases h⟩
    · rw [if_neg ht]
      have hmod : (fc.jobs + 1) % 2 ^ 32 = fc.jobs + 1 := Nat.mod_eq_of_lt (by omega)
      by_cases hl : ((fc.enter Call.do_step_rec).jobs + 1) % 2 ^ 32 < to_unsigned cfg.jobs
      · rw [if_pos hl]
        have hl' : (fc.jobs + 1) % 2 ^ 32 < to_unsigned cfg.jobs := hl
        rw [hmod] at hl'
        refine ⟨?_, ?_, fun h => by cases h⟩
        · show (fc.jobs + 1) % 2 ^ 32 = j0 + (in_flight_frames stack + 1)
          rw [hmod]
          omega
        · show (fc.jobs + 1) % 2 ^ 32 + 1 ≤ to_unsigned cfg.jobs
          rw [hmod]
          omega
      · rw [if_neg hl]
        exact ⟨hj, hb, fun h => by cases h⟩
  | in_line =>
    simp only [main_step]
    rcases hs : do_step E cfg fuel fc with _ | fc1
    · exact ⟨hj, hb, fun h => by cases h⟩
    · have hjobs := do_step_jobs E cfg fuel _ _ hs
      refine ⟨?_, ?_, fun h => by cases h⟩
      · show fc1.jobs = j0 + in_flight_frames stack
        rw [hjobs]
        exact hj
      · show fc1.jobs + 1 ≤ to_unsigned cfg.jobs
        rw [hjobs]
        exact hb
  | ret =>
    simp only [main_step]
    cases stack with
    | nil => exact ⟨hj, hb, fun _ => rfl⟩
    | cons f rest =>
      cases f with
      | tail => exact ⟨hj, hb, fun h => by cases h⟩
      | waits ft =>
        cases ft with
        | pending => exact ⟨hj, hb, fun h => by cases h⟩
        | running => exact ⟨hj, hb, fun h => by cases h⟩
        | finished =>
          simp only [in_flight_frames] at hj
          have hmod : (fc.jobs + (2 ^ 32 - 1)) % 2 ^ 32 = fc.jobs - 1 := by
            have : fc.jobs + (2 ^ 32 - 1) = (fc.jobs - 1) + 2 ^ 32 := by omega
            rw [this, Nat.add_mod_right]
            exact Nat.mod_eq_of_lt (by omega)
          refine ⟨?_, ?_, fun h => by cases h⟩
          · show (fc.jobs + (2 ^ 32 - 1)) % 2 ^ 32 = j0 + in_flight_frames rest
            rw [hmod]
            omega
          · show (fc.jobs + (2 ^ 32 - 1)) % 2 ^ 32 + 1 ≤ to_unsigned cfg.jobs
            rw [hmod]
            omega
  | done => exact ⟨hj, hb, hd⟩

theorem thread_step_invariant (E : Collaborators AS) (cfg : UREConfig) (fuel : Nat) (j0 : Nat)
    (c : Choice) (s : Threads AS)
    (hj : s.fc.jobs = j0 + in_flight s)
    (hb : s.fc.jobs + 1 ≤ to_unsigned cfg.jobs)
    (hd : s.pc = Pc.done → s.stack = []) :
    (thread_step E cfg fuel c s).fc.jobs = j0 + in_flight (thread_step E cfg fuel c s) ∧
    (thread_step E cfg fuel c s).fc.jobs + 1 ≤ to_unsigned cfg.jobs ∧
    ((thread_step E cfg fuel c s).pc = Pc.done → (thread_step E cfg fuel c s).stack = []) := by
  cases c with
  | main_thread => exact main_step_invariant E cfg fuel j0 s hj hb hd
  | task k =>
    obtain ⟨hpc, hjobs, hfl, hnil⟩ := task_step_frame E cfg fuel k s
    show (task_step E cfg fuel k s).fc.jobs = j0 + in_flight (task_step E cfg fuel k s) ∧
      (task_step E cfg fuel k s).fc.jobs + 1 ≤ to_unsigned cfg.jobs ∧
      ((task_step E cfg fuel k s).pc = Pc.done → (task_step E cfg fuel k s).stack = [])
    rw [hjobs, hfl, hpc]
    exact ⟨hj, hb, fun h => hnil (hd h)⟩

theorem run_schedule_invariant (E : Collaborators AS) (cfg : UREConfig) (fuel : Nat) (j0 : Nat) :
    ∀ (sched : List Choice) (s : Threads AS),
      s.fc.jobs = j0 + in_flight s →
      s.fc.jobs + 1 ≤ to_unsigned cfg.jobs →
      (s.pc = Pc.done → s.stack = []) →
      (run_schedule E cfg fuel sched s).fc.jobs =
          j0 + in_flight (run_schedule E cfg fuel sched s) ∧
        (run_schedule E cfg fuel sched s).fc.jobs + 1 ≤ to_unsigned cfg.jobs ∧
        ((run_schedule E cfg fuel sched s).pc = Pc.done →
          (run_schedule E cfg fuel sched s).stack = [])
  | [], _, hj, hb, hd => ⟨hj, hb, hd⟩
  | c :: cs, s, hj, hb, hd => by
    obtain ⟨hj1, hb1, hd1⟩ := thread_step_invariant E cfg fuel j0 c s hj hb hd
    exact run_schedule_invariant E cfg fuel j0 cs _ hj1 hb1 hd1

theorem launch_only_below_limit (E : Collaborators AS) (cfg : UREConfig) (fuel : Nat)
    (c : Choice) (s : Threads AS)
    (h : in_flight s < in_flight (thread_step E cfg fuel c s)) :
    (s.fc.jobs + 1) % 2 ^ 32 < to_unsigned cfg.jobs := by
  cases c with
  | task k =>
    have hfl := (task_step_frame E cfg fuel k s).2.2.1
    have h' : in_flight s < in_flight (task_step E cfg fuel k s) := h
    omega
  | main_thread =>
    have h' : in_flight s < in_flight (main_step E cfg fuel s) := h
    obtain ⟨fc, pc, stack⟩ := s
    simp only [in_flight] at h' ⊢
    cases pc with
    | call =>
      simp only [main_step] at h'
      by_cases ht : termination cfg (fc.enter Call.do_step_rec) = true
      · rw [if_pos ht] at h'
        exact absurd h' (Nat.lt_irrefl _)
      · rw [if_neg ht] at h'
        by_cases hl : ((fc.enter Call.do_step_rec).jobs + 1) % 2 ^ 32 < to_unsigned cfg.jobs
        · exact hl
        · rw [if_neg hl] at h'
          simp only [in_flight_frames] at h'
          exact absurd h' (Nat.lt_irrefl _)
    | in_line =>
      simp only [main_step] at h'
      rcases hs : do_step E cfg fuel fc with _ | fc1
      · rw [hs] at h'
        exact absurd h' (Nat.lt_irrefl _)
      · rw [hs] at h'
        exact absurd h' (Nat.lt_irrefl _)
    | ret =>
      simp only [main_step] at h'
      cases stack with
      | nil => exact absurd h' (Nat.lt_irrefl _)
      | cons f rest =>
        cases f with
        | tail =>
          simp only [in_flight_frames] at h'
          exact absurd h' (Nat.lt_irrefl _)
        | waits ft =>
          cases ft <;> simp only [in_flight_frames] at h' <;> omega
    | done =>
      simp only [main_step] at h'
      exact absurd h' (Nat.lt_irrefl _)

theorem in_line_at_limit (E : Collaborators AS) (cfg : UREConfig) (fuel : Nat)
    (s : Threads AS) (hpc : s.pc = Pc.call)
    (ht : termination cfg (s.fc.enter Call.do_step_rec) = false)
    (hl : ¬ (s.fc.jobs + 1) % 2 ^ 32 < to_unsigned cfg.jobs) :
    (main_step E cfg fuel s).pc = Pc.in_line ∧
    in_flight (main_step E cfg fuel s) = in_flight s ∧
    (main_step E cfg fuel s).fc.jobs = s.fc.jobs := by
  obtain ⟨fc, pc, stack⟩ := s
  simp only at hpc ht hl
  subst hpc
  simp only [main_step]
  have hl' : ¬ ((fc.enter Call.do_step_rec).jobs + 1) % 2 ^ 32 < to_unsigned cfg.jobs := hl
  rw [ht, if_neg (by simp), if_neg hl']
  exact ⟨rfl, rfl, rfl⟩

theorem launch_below_limit (E : Collaborators AS) (cfg : UREConfig) (fuel : Nat)
    (s : Threads AS) (hpc : s.pc = Pc.call)
    (ht : termination cfg (s.fc.enter Call.do_step_rec) = false)
    (hl : (s.fc.jobs + 1) % 2 ^ 32 < to_unsigned cfg.jobs) :
    (main_step E cfg fuel s).pc = Pc.call ∧
    (main_step E cfg fuel s).stack = Frame.waits TaskStatus.pending :: s.stack ∧
    (main_step E cfg fuel s).fc.jobs = (s.fc.jobs + 1) % 2 ^ 32 := by
  obtain ⟨fc, pc, stack⟩ := s
  simp only at hpc ht hl
  subst hpc
  simp only [main_step]
  have hl' : ((fc.enter Call.do_step_rec).jobs + 1) % 2 ^ 32 < to_unsigned cfg.jobs := hl
  rw [ht, if_neg (by simp), if_pos hl']
  exact ⟨rfl, rfl, rfl⟩

theorem do_step_rec_jobs_restored (E : Collaborators AS) (cfg : UREConfig)
    (eager : Nat → Bool) :
    ∀ (fuel : Nat) (fc fc' : ForwardChainer AS), fc.jobs < 2 ^ 32 →
      do_step_rec E cfg eager fuel fc = some fc' → fc'.jobs = fc.jobs := by
  intro fuel
  induction fuel with
  | zero => intro fc fc' _ h; simp [do_step_rec] at h
  | succ n ih =>
    intro fc fc' hlt h
    have hback : ((fc.jobs + 1) % 2 ^ 32 + (2 ^ 32 - 1)) % 2 ^ 32 = fc.jobs := by omega
    have hmlt : (fc.jobs + 1) % 2 ^ 32 < 2 ^ 32 := Nat.mod_lt _ (by norm_num)
    rw [do_step_rec_succ] at h
    by_cases ht : termination cfg (fc.enter Call.do_step_rec) = true
    · rw [if_pos ht] at h
      simp only [Option.some.injEq] at h
      subst h
      rfl
    · rw [if_neg ht] at h
      by_cases hj : (fc.jobs + 1) % 2 ^ 32 < to_unsigned cfg.jobs
      · rw [if_pos hj] at h
        by_cases he : eager fc.launched = true
        · rw [if_pos he] at h
          simp only [Option.bind_eq_some, Option.map_eq_some'] at h
          obtain ⟨fc2, h2, fc3, h3, hfc⟩ := h
          subst hfc
          have e2 := do_step_jobs E cfg n _ fc2 h2
          have e2' : fc2.jobs = (fc.jobs + 1) % 2 ^ 32 := e2
          have e3 := ih fc2 fc3 (by rw [e2']; exact hmlt) h3
          show (fc3.jobs + (2 ^ 32 - 1)) % 2 ^ 32 = fc.jobs
          rw [e3, e2']
          exact hback
        · rw [if_neg he] at h
          simp only [Option.bind_eq_some, Option.map_eq_some'] at h
          obtain ⟨fc2, h2, fc3, h3, hfc⟩ := h
          subst hfc
          have e2 := ih _ fc2 hmlt h2
          have e2' : fc2.jobs = (fc.jobs + 1) % 2 ^ 32 := e2
          have e3 := do_step_jobs E cfg n fc2 fc3 h3
          show (fc3.jobs + (2 ^ 32 - 1)) % 2 ^ 32 = fc.jobs
          rw [e3, e2']
          exact hback
      · rw [if_neg hj] at h
        simp only [Option.bind_eq_some] at h
        obtain ⟨fc2, h2, h3⟩ := h
        have e2 := do_step_jobs E cfg n _ fc2 h2
        have e2' : fc2.jobs = fc.jobs := e2
        have e3 := ih fc2 fc' (by rw [e2']; exact hlt) h3
        rw [e3, e2']

/-- C11: with job limit `J` (a value of the `int` range) and `do_step_rec` called
with `_jobs <= J - 1` (so `J >= 1`; `_jobs` is 0 at the call made by
`do_chain`), at every instant of every schedule of the main thread and the
launched steps: `_jobs <= J - 1`; `_jobs` is its value at the call plus the
number of steps launched and not yet joined; the steps in flight at the call
together with the steps being executed are at most `J`; a step is launched
only when `_jobs + 1 < J`, and otherwise the step runs in line, with no
launch; and once `do_step_rec` has returned, `_jobs` has the value it had at
the call and no launched step is left unjoined.  In the call-by-call reading
of `do_step_rec`, under every schedule a call that returns does so with the
value of `_jobs` it was called with. -/
theorem do_step_rec_concurrency_bound (E : Collaborators AS) (cfg : UREConfig) (fuel : Nat)
    (fc : ForwardChainer AS)
    (hrange : cfg.jobs < 2 ^ 32)
    (h0 : (fc.jobs : Int) ≤ cfg.jobs - 1) :
    (∀ (sched : List Choice) (s : Threads AS),
      run_schedule E cfg fuel sched (start_threads fc) = s →
      (s.fc.jobs : Int) ≤ cfg.jobs - 1 ∧
      s.fc.jobs = fc.jobs + in_flight s ∧
      ((fc.jobs + executing s : Nat) : Int) ≤ cfg.jobs ∧
      (∀ c, in_flight s < in_flight (thread_step E cfg fuel c s) →
        (s.fc.jobs : Int) + 1 < cfg.jobs) ∧
      (s.pc = Pc.call → termination cfg (s.fc.enter Call.do_step_rec) = false →
        ¬ ((s.fc.jobs : Int) + 1 < cfg.jobs) →
        (main_step E cfg fuel s).pc = Pc.in_line ∧
          in_flight (main_step E cfg fuel s) = in_flight s) ∧
      (s.pc = Pc.done → s.fc.jobs = fc.jobs ∧ in_flight s = 0)) ∧
    (∀ (eager : Nat → Bool) (n : Nat) (fc' : ForwardChainer AS),
      do_step_rec E cfg eager n fc = some fc' → fc'.jobs = fc.jobs) := by
  have hJ0 : 0 ≤ cfg.jobs := by omega
  have hU := to_unsigned_of_range cfg.jobs hJ0 hrange
  have h32 := to_unsigned_lt cfg.jobs
  refine ⟨?_, ?_⟩
  · intro sched s hs
    subst hs
    obtain ⟨hj, hb, hd⟩ := run_schedule_invariant E cfg fuel fc.jobs sched (start_threads fc)
      (by simp [start_threads, in_flight, in_flight_frames])
      (by show fc.jobs + 1 ≤ to_unsigned cfg.jobs; omega)
      (fun _ => rfl)
    generalize run_schedule E cfg fuel sched (start_threads fc) = s at hj hb hd
    have hmod : (s.fc.jobs + 1) % 2 ^ 32 = s.fc.jobs + 1 := Nat.mod_eq_of_lt (by omega)
    refine ⟨by omega, hj, ?_, ?_, ?_, ?_⟩
    · have hc := count_running_le_in_flight s.stack
      have he : executing s ≤ in_flight s + 1 := by
        unfold executing in_flight
        split <;> omega
      omega
    · intro c hc
      have hl := launch_only_below_limit E cfg fuel c s hc
      rw [hmod] at hl
      omega
    · intro hpc ht hl
      have hl' : ¬ (s.fc.jobs + 1) % 2 ^ 32 < to_unsigned cfg.jobs := by
        rw [hmod]
        omega
      exact ⟨(in_line_at_limit E cfg fuel s hpc ht hl').1,
        (in_line_at_limit E cfg fuel s hpc ht hl').2.1⟩
    · intro hpc
      have hnil := hd hpc
      have hz : in_flight s = 0 := by
        unfold in_flight
        rw [hnil]
        rfl
      exact ⟨by omega, hz⟩
  · intro eager n fc' h
    exact do_step_rec_jobs_restored E cfg eager n fc fc' (by omega) h

/-- Witness for C11: job limit 2, two iterations allowed, one premise and one
rule.  The main thread launches a step, that step starts, and the main
thread starts a step in line: two steps are being executed.  Both complete,
the main thread returns through both activations, and `_jobs` is 0 again. -/
theorem do_step_rec_concurrency_bound_witness :
    (2 : Int) < 2 ^ 32 ∧
    ((0 : Nat) : Int) ≤ 2 - 1 ∧
    executing (run_schedule (sample_collaborators []) ⟨2, 2, false⟩ 3
      [Choice.main_thread, Choice.task 0, Choice.main_thread]
      (start_threads (sample_chainer [1] [sample_rule "r" 2 [1]] [⟨1, none, [], false⟩]))) = 2 ∧
    (run_schedule (sample_collaborators []) ⟨2, 2, false⟩ 3
      [Choice.main_thread, Choice.task 0, Choice.main_thread, Choice.main_thread,
        Choice.task 1, Choice.main_thread, Choice.main_thread, Choice.main_thread,
        Choice.main_thread]
      (start_threads (sample_chainer [1] [sample_rule "r" 2 [1]] [⟨1, none, [], false⟩]))).pc
      = Pc.done ∧
    (run_schedule (sample_collaborators []) ⟨2, 2, false⟩ 3
      [Choice.main_thread, Choice.task 0, Choice.main_thread, Choice.main_thread,
        Choice.task 1, Choice.main_thread, Choice.main_thread, Choice.main_thread,
        Choice.main_thread]
      (start_threads (sample_chainer [1] [sample_rule "r" 2 [1]] [⟨1, none, [], false⟩]))).fc.jobs
      = 0 :=
  ⟨by decide, by decide, by decide, by decide,
    (((do_step_rec_concurrency_bound (sample_collaborators []) ⟨2, 2, false⟩ 3
      (sample_chainer [1] [sample_rule "r" 2 [1]] [⟨1, none, [], false⟩])
      (by decide) (by decide)).1
      [Choice.main_thread, Choice.task 0, Choice.main_thread, Choice.main_thread,
        Choice.task 1, Choice.main_thread, Choice.main_thread, Choice.main_thread,
        Choice.main_thread] _ rfl).2.2.2.2.2 (by decide)).1⟩

end opencog
